import Mathlib

namespace TrieLab

/-- The two key kinds the Python `Trie` accepts: `str` keys and `tuple` keys. -/
inductive PyType where
  | str
  | tup
deriving DecidableEq, Repr

/-- A Python key passed to the trie API: either a string (sequence of characters)
or a tuple of word tokens. -/
inductive PyKey where
  | str (chars : List Char)
  | tup (toks : List String)
deriving DecidableEq, Repr

/-- A child-dictionary key of a trie node.  In the Python source these are either
bare one-character strings (string-keyed tries, atoms taken directly from the key)
or one-element tuples `(tok,)` (tuple-keyed tries, atoms wrapped by `c = (c,)`). -/
inductive Atom where
  | s (v : String)
  | t1 (v : String)
deriving DecidableEq, Repr

/-- A trie node: `value` is the payload (`none` models Python's `None` absence
marker) and `children` is the node's child dict, modelled as an insertion-ordered
association list (Python dicts preserve insertion order; `setdefault` appends new
keys at the end).  The Python node also stores a `type` field, but every node's
`type` equals the root's current `type` (children are created with `Trie(self.type)`
and the root's type can only change while the trie has no nodes below the root),
so the kind is kept once, on `Trie` below. -/
inductive Node (V : Type) where
  | mk (value : Option V) (children : List (Atom × Node V))

/-- The root of a trie together with its locked kind (`self.type` at the root:
`none` until a first insertion establishes it). -/
structure Trie (V : Type) where
  root : Node V
  ty : Option PyType

/-- The two error kinds of the source: Python `TypeError` and `KeyError`. -/
inductive Err where
  | typeError
  | keyError
deriving DecidableEq, Repr

def Node.value {V} : Node V → Option V
  | .mk v _ => v

def Node.children {V} : Node V → List (Atom × Node V)
  | .mk _ ch => ch

def Node.empty {V} : Node V := .mk none []

def Trie.empty {V} : Trie V := ⟨Node.empty, none⟩

/-- The elements iterated over by `for c in key`: the characters of a string key
(as one-character Python strings) or the tokens of a tuple key. -/
def elemStr : PyKey → List String
  | .str cs => cs.map Char.toString
  | .tup ts => ts

def keyKind : PyKey → PyType
  | .str _ => .str
  | .tup _ => .tup

/-- The child-dict atoms a key's elements become when walked by a trie whose
`type` is `ty`: the source wraps each element as `(c,)` when `self.type is tuple`,
and uses it bare otherwise. -/
def atomsWith (ty : Option PyType) (k : PyKey) : List Atom :=
  if ty = some .tup then (elemStr k).map Atom.t1 else (elemStr k).map Atom.s

/-- `self.type()`: the empty key of the trie's kind (`""` or `()`). -/
def emptyKey : PyType → PyKey
  | .str => .str []
  | .tup => .tup []

/-- Key reconstruction step of `__iter__`: Python's `key + child` where `child`
is one child-dict atom.  The mixed cases (a bare-string atom appended to a tuple
key or a tuple atom appended to a string key) never occur in tries built through
the API, where every stored atom matches the trie's kind; Python would raise
there, and we return the key unchanged. -/
def appendAtom : PyKey → Atom → PyKey
  | .str cs, .s v => .str (cs ++ v.data)
  | .str cs, .t1 _ => .str cs
  | .tup ts, .t1 v => .tup (ts ++ [v])
  | .tup ts, .s _ => .tup ts

/-- Lookup in a child dict: first entry with the given atom (dict keys are unique
in tries built through the API). -/
def assocGet {β : Type} : List (Atom × β) → Atom → Option β
  | [], _ => none
  | (b, n) :: ch, a => if b = a then some n else assocGet ch a

/-- Replace the entry for an existing atom, keeping its position (Python dict
update preserves insertion order). -/
def assocSet {β : Type} : List (Atom × β) → Atom → β → List (Atom × β)
  | [], a, n => [(a, n)]
  | (b, m) :: ch, a, n => if b = a then (b, n) :: ch else (b, m) :: assocSet ch a n

/-- The walk of `__getitem__`/`find`: follow the atoms from this node, `none`
when some atom is missing from a child dict. -/
def Node.findNode {V} : Node V → List Atom → Option (Node V)
  | n, [] => some n
  | n, a :: rest =>
    match assocGet n.children a with
    | none => none
    | some c => c.findNode rest

/-- The payload reached by a path: `Trie.find` in the source returns `False`
(here `none`) both when the path is missing and when the terminal node's value
is the absence marker. -/
def Node.findVal {V} (n : Node V) (as : List Atom) : Option V :=
  match n.findNode as with
  | none => none
  | some m => m.value

/-- The walk of `__setitem__` from this node: `setdefault` creates a missing
child (appended at the end of the dict) or follows the existing one, and the
terminal node's value is assigned (`v = none` models `__setitem__(key, None)`,
which `__delitem__` uses). -/
def Node.setAtoms {V} : Node V → List Atom → Option V → Node V
  | .mk _ ch, [], v => .mk v ch
  | .mk w ch, a :: rest, v =>
    match assocGet ch a with
    | some n => .mk w (assocSet ch a (n.setAtoms rest v))
    | none => .mk w (ch ++ [(a, Node.setAtoms Node.empty rest v)])

mutual
/-- The depth-first generator of `__iter__` (`gen`): yield this node's pair
first (when its value is assigned), then recurse into the children in dict
(first-insertion) order, extending the reconstructed key. -/
def Node.iter {V} : Node V → PyKey → List (PyKey × V)
  | .mk v ch, k =>
    (match v with
     | some x => [(k, x)]
     | none => []) ++ Node.iterCh ch k

/-- The `for child, trie in node.children.items(): yield from ...` loop of the
generator, over the remaining children of one node. -/
def Node.iterCh {V} : List (Atom × Node V) → PyKey → List (PyKey × V)
  | [], _ => []
  | (a, n) :: rest, k => Node.iter n (appendAtom k a) ++ Node.iterCh rest k
end

/-- `Trie.__setitem__`.  When the root has no children (`len(self.children) == 0`)
any supported key is accepted and the trie's type is (re-)locked to the key's kind;
the `not (str or tuple)` raise of that branch is unreachable here because `PyKey`
only has the two supported kinds.  Otherwise a key whose kind disagrees with a
non-`None` locked type raises `TypeError`.  The walk then wraps atoms according to
`self.type` as it stands after the first branch. -/
def Trie.setitem {V} (t : Trie V) (k : PyKey) (v : Option V) : Except Err (Trie V) :=
  if t.root.children.isEmpty then
    .ok ⟨t.root.setAtoms (atomsWith (some (keyKind k)) k) v, some (keyKind k)⟩
  else if t.ty ≠ none ∧ t.ty ≠ some (keyKind k) then .error .typeError
  else .ok ⟨t.root.setAtoms (atomsWith t.ty k) v, t.ty⟩

/-- `Trie.find`: walk the key's atoms from the root; `none` models the source's
`False` result (missing path, or terminal value unassigned).  The node it returns
is only ever used for its value, so the value is returned directly. -/
def Trie.find {V} (t : Trie V) (k : PyKey) : Option V :=
  t.root.findVal (atomsWith t.ty k)

/-- `Trie.__getitem__`: `TypeError` when the trie is untyped or the key's kind
disagrees with the locked type, `KeyError` when `find` fails. -/
def Trie.getitem {V} (t : Trie V) (k : PyKey) : Except Err V :=
  if t.ty = none ∨ t.ty ≠ some (keyKind k) then .error .typeError
  else
    match t.find k with
    | none => .error .keyError
    | some v => .ok v

/-- `Trie.__contains__`. -/
def Trie.contains {V} (t : Trie V) (k : PyKey) : Bool :=
  (t.find k).isSome

/-- `Trie.__delitem__`: `__getitem__` for its failure behaviour, then
`__setitem__(key, None)`. -/
def Trie.delitem {V} (t : Trie V) (k : PyKey) : Except Err (Trie V) :=
  match t.getitem k with
  | .error e => .error e
  | .ok _ => t.setitem k none

/-- `Trie.__iter__`: empty sequence when the trie is untyped, otherwise the
depth-first generator started with `self.type()` as the key accumulator. -/
def Trie.iterate {V} (t : Trie V) : List (PyKey × V) :=
  match t.ty with
  | none => []
  | some kd => t.root.iter (emptyKey kd)

/-- One insertion step of a stable descending-by-frequency sort: `x` is placed
before the first element whose frequency is `≤` its own. -/
def insertDesc {α : Type} (x : α × Nat) : List (α × Nat) → List (α × Nat)
  | [] => [x]
  | y :: ys => if y.2 ≤ x.2 then x :: y :: ys else y :: insertDesc x ys

/-- `list.sort(key=lambda tup: tup[1], reverse=True)`: a stable sort by
frequency descending (Python's sort is stable, and `reverse=True` keeps
equal-key elements in their original order), as stable insertion sort. -/
def sortDesc {α : Type} : List (α × Nat) → List (α × Nat)
  | [] => []
  | x :: xs => insertDesc x (sortDesc xs)

/-- `prefix + key` of `find_completes_prefix`.  The mixed cases are unreachable
(the walked subtrie only yields keys of the trie's own kind, which matched the
prefix's kind); Python would raise there, and we return the prefix unchanged. -/
def keyAppend : PyKey → PyKey → PyKey
  | .str a, .str b => .str (a ++ b)
  | .tup a, .tup b => .tup (a ++ b)
  | .str a, .tup _ => .str a
  | .tup a, .str _ => .tup a

/-- The pre-sort list `[(prefix + key, freq) for key, freq in trie]` of
`find_completes_prefix`: the depth-first enumeration of the subtrie reached by
walking the prefix, each key prepended with the prefix (empty when the walk hits
a missing atom). -/
def dfsCompletions (t : Trie Nat) (p : PyKey) : List (PyKey × Nat) :=
  match t.root.findNode (atomsWith t.ty p) with
  | none => []
  | some n => (n.iter (emptyKey (keyKind p))).map (fun kv => (keyAppend p kv.1, kv.2))

/-- `find_completes_prefix`: type check against the trie's locked type, walk the
prefix (missing atom means empty result), enumerate the reached subtrie, prepend
the prefix to each enumerated key, sort by frequency descending (stable), and
truncate to `maxCount` when given.  The subtrie node's own `type` field, used by
its `__iter__`, always equals the root's (see `Node`). -/
def find_completes_prefix (t : Trie Nat) (p : PyKey) (maxCount : Option Nat) :
    Except Err (List (PyKey × Nat)) :=
  if t.ty ≠ some (keyKind p) then .error .typeError
  else
    match t.root.findNode (atomsWith t.ty p) with
    | none => .ok []
    | some _ =>
      let sorted := sortDesc (dfsCompletions t p)
      match maxCount with
      | none => .ok sorted
      | some m => .ok (sorted.take m)

/-- `autocomplete`: the ranked keys of `find_completes_prefix`. -/
def autocomplete (t : Trie Nat) (p : PyKey) (maxCount : Option Nat) :
    Except Err (List PyKey) :=
  match find_completes_prefix t p maxCount with
  | .error e => .error e
  | .ok l => .ok (l.map Prod.fst)

/-- `is_match` of `word_filter`, on the suffixes `word[w_index:]` /
`pattern[p_index:]`.  Word elements are Python strings (one-character strings
for string keys, tokens for tuple keys), pattern elements characters; the
literal comparison `p == w` compares the pattern character, a one-character
string in Python, with the word element.  The source's first base case returns
`True` when both are exhausted and otherwise tests
`set(pattern[p_index:]) == {'*'}`, which for a nonempty remainder is exactly
"all remaining pattern characters are `*`"; `List.all` covers both. -/
def is_match (w : List String) (pat : List Char) : Bool :=
  match w, pat with
  | [], ps => ps.all (fun p => p == '*')
  | _ :: _, [] => false
  | c :: ws, p :: ps =>
    if p ≠ '*' then (p == '?' || p.toString == c) && is_match ws ps
    else is_match (c :: ws) ps || is_match ws (p :: ps)
termination_by w.length + pat.length

/-- `word_filter`: the trie's full enumeration filtered by the matcher, in
enumeration order. -/
def word_filter (t : Trie Nat) (pat : List Char) : List (PyKey × Nat) :=
  t.iterate.filter (fun kv => is_match (elemStr kv.1) pat)

/-- `'abcdefghijklmnopqrstuvwxyz'`. -/
def lowercase : List Char := "abcdefghijklmnopqrstuvwxyz".toList

/-- `edit_insert`: one lowercase letter inserted at each position `i` in
`0..len(prefix)`, both ends included. -/
def edit_insert (p : List Char) : List (List Char) :=
  (List.range (p.length + 1)).flatMap
    (fun i => lowercase.map (fun c => p.take i ++ c :: p.drop i))

/-- `edit_delete`: the character at each position `i` removed. -/
def edit_delete (p : List Char) : List (List Char) :=
  (List.range p.length).map (fun i => p.take i ++ p.drop (i + 1))

/-- `edit_replace`: the character at each position `i` replaced by each
lowercase letter. -/
def edit_replace (p : List Char) : List (List Char) :=
  (List.range p.length).flatMap
    (fun i => lowercase.map (fun c => p.take i ++ c :: p.drop (i + 1)))

/-- `edit_transpose`: for each `i` in `1..len(prefix)-1`, the string
`prefix[:i-1] + prefix[i] + prefix[i-1] + prefix[i+1:]`.  The `getD` defaults
are never used, since `i < len(prefix)`. -/
def edit_transpose (p : List Char) : List (List Char) :=
  (List.range p.length).filterMap (fun i =>
    if 0 < i then
      some (p.take (i - 1) ++ [p.getD i ' ', p.getD (i - 1) ' '] ++ p.drop (i + 1))
    else none)

/-- `possible_edits`: the union of the four Python sets of candidate strings. -/
def possible_edits (p : List Char) : Finset (List Char) :=
  (edit_insert p ++ edit_delete p ++ edit_replace p ++ edit_transpose p).toFinset

/-- Pairwise non-increasing frequencies: what `sorted(..., reverse=True)`
guarantees of its output. -/
def SortedByFreqDesc {α : Type} (l : List (α × Nat)) : Prop :=
  l.Pairwise (fun a b => b.2 ≤ a.2)

/-- The `(edit, trie[edit])` pair for a candidate edit; only used where the
edit is known to be present, so the `getD` default is never used. -/
def editPair (t : Trie Nat) (e : List Char) : PyKey × Nat :=
  (.str e, (t.find (.str e)).getD 0)

/-- The `valid_edits` set built by autocorrect's while loop: candidates that
differ from the prefix, are present in the trie (`edit in trie`), and whose
`(edit, trie[edit])` pair is not already among the completions.  The loop pops
candidates in arbitrary order, but the resulting set does not depend on it. -/
def valid_edits (t : Trie Nat) (p : List Char) (compSet : Finset (PyKey × Nat)) :
    Finset (PyKey × Nat) :=
  ((possible_edits p).filter
    (fun e => e ≠ p ∧ (t.find (.str e)).isSome ∧ editPair t e ∉ compSet)).image (editPair t)

/-- The possible results of autocorrect's edit phase (the code after the early
return), given the completion pairs `cl` recomputed by `find_completes_prefix`:
some arbitrary descending arrangement `s` of the valid-edit set is truncated to
the remaining budget when `max_count` is given, and the final comprehension
iterates the set union `completions | valid_edits` in an arbitrary order `l`. -/
def AutocorrectMain (t : Trie Nat) (cs : List Char) (mc : Option Nat)
    (cl : List (PyKey × Nat)) (out : Except Err (List PyKey)) : Prop :=
  let compSet := cl.toFinset
  let ve := valid_edits t cs compSet
  match mc with
  | none =>
    ∃ l : List (PyKey × Nat),
      l.Nodup ∧ l.toFinset = compSet ∪ ve ∧ out = .ok (l.map Prod.fst)
  | some n =>
    ∃ s : List (PyKey × Nat), s.Nodup ∧ s.toFinset = ve ∧ SortedByFreqDesc s ∧
      ∃ l : List (PyKey × Nat),
        l.Nodup ∧ l.toFinset = compSet ∪ (s.take (n - compSet.card)).toFinset ∧
        out = .ok (l.map Prod.fst)

/-- The possible results of `autocorrect t p mc`.  Two steps of the source are
nondeterministic, because they enumerate Python sets whose iteration order is
arbitrary: `sorted(valid_edits, ...)` receives the set's elements in arbitrary
order (so with `max_count` set, the kept edits are the first
`max_count - len(completions)` of an arbitrary descending-by-frequency
arrangement `s`, ties broken arbitrarily), and the final list comprehension
iterates `completions | valid_edits` in arbitrary order (any permutation `l`).
The slice bound `max_count - len(completions)` is a Python int; it is positive
whenever this branch runs (the early return fires when the completions already
number `max_count`), so `Nat` subtraction is faithful.  A tuple prefix that
survives the early return reaches `prefix[:i] + c`, which raises `TypeError`
on a tuple. -/
def AutocorrectOut (t : Trie Nat) (p : PyKey) (mc : Option Nat)
    (out : Except Err (List PyKey)) : Prop :=
  match autocomplete t p mc with
  | .error e => out = .error e
  | .ok comps =>
    if mc = some comps.length then out = .ok comps
    else
      match p with
      | .tup _ => out = .error .typeError
      | .str cs =>
        match find_completes_prefix t p mc with
        | .error e => out = .error e
        | .ok cl => AutocorrectMain t cs mc cl out

/-- A mutating call against the trie: `t[k] = v` or `del t[k]`. -/
inductive Op (V : Type) where
  | set (k : PyKey) (v : V)
  | del (k : PyKey)

/-- Run one call; a call that raises leaves the trie unchanged (both methods
raise before mutating anything). -/
def applyOp {V} (t : Trie V) : Op V → Trie V
  | .set k v =>
    match t.setitem k (some v) with
    | .ok t' => t'
    | .error _ => t
  | .del k =>
    match t.delitem k with
    | .ok t' => t'
    | .error _ => t

def applyOps {V} (t : Trie V) (ops : List (Op V)) : Trie V :=
  ops.foldl applyOp t

/-- Abstract state of a trie built by a sequence of calls: the locked kind,
whether any nonempty key was ever successfully inserted (equivalently, whether
the root has children — nodes are never removed), and the present keys with
their latest values. -/
structure Model (V : Type) where
  kind : Option PyType
  hasDeep : Bool
  entries : List (PyKey × V)

def Model.empty {V} : Model V := ⟨none, false, []⟩

def assocFind {V} : List (PyKey × V) → PyKey → Option V
  | [], _ => none
  | (k', v) :: es, k => if k' = k then some v else assocFind es k

/-- Two keys address the same trie node exactly when they are equal or both
empty: the empty string key and the empty tuple key both address the root (this
is the one place distinct keys collide, reachable only while the trie has no
children, where `__setitem__` re-locks the type). -/
def entriesUpdate {V} (es : List (PyKey × V)) (k : PyKey) (v : Option V) :
    List (PyKey × V) :=
  let cleaned := es.filter (fun e => decide ¬(e.1 = k ∨ (elemStr e.1 = [] ∧ elemStr k = [])))
  match v with
  | some w => cleaned ++ [(k, w)]
  | none => cleaned

/-- The abstract effect of one call, mirroring exactly when the source raises:
`__setitem__` raises only when the root has children and the key's kind
disagrees with the locked type; `__delitem__` raises unless the key's kind
matches the locked type and the key is present. -/
def modelStep {V} (m : Model V) : Op V → Model V
  | .set k v =>
    if m.hasDeep ∧ m.kind ≠ some (keyKind k) then m
    else
      -- While the root has no children, `__setitem__` re-locks the type to the
      -- new key's kind; a payload stored at the root via an empty key survives
      -- and is henceforth addressed by the *new* kind's empty key, so empty-key
      -- entries are re-keyed accordingly (a no-op when the kind is unchanged).
      { kind := if m.hasDeep then m.kind else some (keyKind k)
        hasDeep := m.hasDeep || !(elemStr k).isEmpty
        entries := entriesUpdate
          (m.entries.map (fun e =>
            if (elemStr e.1).isEmpty then (emptyKey (keyKind k), e.2) else e))
          k (some v) }
  | .del k =>
    if m.kind = some (keyKind k) ∧ (assocFind m.entries k).isSome then
      { kind := m.kind, hasDeep := m.hasDeep, entries := entriesUpdate m.entries k none }
    else m

def replay {V} (ops : List (Op V)) : Model V :=
  ops.foldl modelStep Model.empty

/-- The latest value stored for `k` by a sequence of calls, `none` when `k` was
never set or was deleted (or shadowed, for the colliding empty keys) since. -/
def replayLookup {V} (ops : List (Op V)) (k : PyKey) : Option V :=
  assocFind (replay ops).entries k

/-- Whether a child-dict atom is one a trie of kind `kd` can contain: bare
one-character strings for string tries, wrapped one-element tuples for tuple
tries. -/
def AtomOK : PyType → Atom → Bool
  | .str, .s v => v.length == 1
  | .tup, .t1 _ => true
  | _, _ => false

mutual
/-- Well-formedness of a node of a trie of kind `kd`: child atoms are distinct
(they are Python dict keys), of the right shape, and children are recursively
well-formed.  Every trie reachable through the API satisfies this. -/
def Node.wf {V} (kd : PyType) : Node V → Bool
  | .mk _ ch => decide (ch.map Prod.fst).Nodup && Node.wfCh kd ch

def Node.wfCh {V} (kd : PyType) : List (Atom × Node V) → Bool
  | [] => true
  | (a, n) :: rest => AtomOK kd a && Node.wf kd n && Node.wfCh kd rest
end

/-- Well-formedness of a whole trie: an untyped trie is the fresh empty trie,
and a typed one has a well-formed root for its kind. -/
def Trie.wf {V} (t : Trie V) : Bool :=
  match t.ty with
  | none =>
    match t.root with
    | .mk v ch => v.isNone && ch.isEmpty
  | some kd => t.root.wf kd

/-- Build helper for concrete tries: insert, ignoring the (impossible) error. -/
def setD {V} (t : Trie V) (k : PyKey) (v : V) : Trie V :=
  match t.setitem k (some v) with
  | .ok t' => t'
  | .error _ => t

def strKey (s : String) : PyKey := .str s.toList

/-- Spec-side, per the spec's words: standard glob semantics over characters —
`*` matches any sequence of zero or more characters, `?` matches exactly one
character, and any other character matches itself.  `GlobMatches pat w` says the
pattern matches the whole word. -/
inductive GlobMatches : List Char → List Char → Prop where
  | nil : GlobMatches [] []
  | one {p : Char} {ps : List Char} {c : Char} {ws : List Char} :
      p ≠ '*' → (p = '?' ∨ p = c) → GlobMatches ps ws → GlobMatches (p :: ps) (c :: ws)
  | star {ps : List Char} {w1 w2 : List Char} :
      GlobMatches ps w2 → GlobMatches ('*' :: ps) (w1 ++ w2)

/-- Spec-side: one of the 26 lowercase Latin letters. -/
def IsLowerAlpha (c : Char) : Prop := 'a' ≤ c ∧ c ≤ 'z'

/-- Spec-side: `s` is `p` with one lowercase letter inserted at some position,
both ends included. -/
def IsInsertionOf (p s : List Char) : Prop :=
  ∃ i c, i ≤ p.length ∧ IsLowerAlpha c ∧ s = p.take i ++ c :: p.drop i

/-- Spec-side: `s` is `p` with the character at some position removed. -/
def IsDeletionOf (p s : List Char) : Prop :=
  ∃ i, i < p.length ∧ s = p.take i ++ p.drop (i + 1)

/-- Spec-side: `s` is `p` with the character at some position replaced by a
lowercase letter. -/
def IsSubstitutionOf (p s : List Char) : Prop :=
  ∃ i c, i < p.length ∧ IsLowerAlpha c ∧ s = p.take i ++ c :: p.drop (i + 1)

/-- The swap of the adjacent characters at positions `j` and `j+1`; the `getD`
defaults are never used when `j + 1 < p.length`. -/
def swapAdj (p : List Char) (j : Nat) : List Char :=
  p.take j ++ [p.getD (j + 1) ' ', p.getD j ' '] ++ p.drop (j + 2)

/-- Spec-side: `s` is `p` with one adjacent pair of characters swapped. -/
def IsTranspositionOf (p s : List Char) : Prop :=
  ∃ j, j + 1 < p.length ∧ s = swapAdj p j

/-- Spec-side: the first key is a prefix of the second (same kind, element
sequence a prefix). -/
def IsKeyPrefix : PyKey → PyKey → Prop
  | .str a, .str b => a <+: b
  | .tup a, .tup b => a <+: b
  | .str _, .tup _ => False
  | .tup _, .str _ => False

/-- An example trie used to instantiate hypotheses of the claim theorems:
only the empty string key has been inserted. -/
def tEmptyStrOnly : Trie Nat := setD Trie.empty (strKey "") 1

/-- An example trie: `{"a": 1}`. -/
def tA : Trie Nat := setD Trie.empty (strKey "a") 1

/-- The word trie of `"bat bat bark bar"`: `{"bat": 2, "bark": 1, "bar": 1}`,
inserted in first-occurrence order as `make_word_trie` would. -/
def tBat : Trie Nat :=
  setD (setD (setD Trie.empty (strKey "bat") 2) (strKey "bark") 1) (strKey "bar") 1

/-- An example trie: `{"a": 2, "b": 1}`. -/
def tAB2 : Trie Nat := setD (setD Trie.empty (strKey "a") 2) (strKey "b") 1

/-- The coupling invariant between a trie built by a sequence of calls and its
abstract model. -/
structure Inv {V : Type} (t : Trie V) (m : Model V) : Prop where
  ty_eq : t.ty = m.kind
  shallow_iff : t.root.children = [] ↔ m.hasDeep = false
  untyped_empty : m.kind = none → t.root = Node.empty ∧ m.entries = []
  root_wf : ∀ kd, m.kind = some kd → t.root.wf kd = true
  entry_kind : ∀ kd, m.kind = some kd → ∀ e ∈ m.entries, keyKind e.1 = kd
  shallow_entries : m.hasDeep = false → ∀ e ∈ m.entries, elemStr e.1 = []
  nodup_keys : (m.entries.map Prod.fst).Nodup
  mem_iterate : ∀ k v, ((k, v) ∈ t.iterate) ↔ assocFind m.entries k = some v

@[simp]
theorem Node.value_mk {V} (v : Option V) (ch) : (Node.mk v ch).value = v := rfl

@[simp]
theorem Node.children_mk {V} (v : Option V) (ch) : (Node.mk v ch).children = ch := rfl

@[simp]
theorem assocGet_nil {β : Type} (a : Atom) : assocGet ([] : List (Atom × β)) a = none := rfl

theorem assocGet_cons {β : Type} (b : Atom) (n : β) (ch a) :
    assocGet ((b, n) :: ch) a = if b = a then some n else assocGet ch a := rfl

theorem assocGet_append_of_none {β : Type} {ch : List (Atom × β)} {a : Atom}
    (h : assocGet ch a = none) (l : List (Atom × β)) :
    assocGet (ch ++ l) a = assocGet l a := by
  induction ch with
  | nil => simp
  | cons e ch ih =>
    obtain ⟨b, n⟩ := e
    rw [assocGet_cons] at h
    by_cases hba : b = a
    · simp [hba] at h
    · rw [List.cons_append, assocGet_cons, if_neg hba]
      exact ih (by rwa [if_neg hba] at h)

theorem assocGet_append_of_some {β : Type} {ch : List (Atom × β)} {a : Atom} {n : β}
    (h : assocGet ch a = some n) (l : List (Atom × β)) :
    assocGet (ch ++ l) a = some n := by
  induction ch with
  | nil => simp at h
  | cons e ch ih =>
    obtain ⟨b, m⟩ := e
    rw [assocGet_cons] at h
    by_cases hba : b = a
    · rw [if_pos hba] at h
      rw [List.cons_append, assocGet_cons, if_pos hba, h]
    · rw [if_neg hba] at h
      rw [List.cons_append, assocGet_cons, if_neg hba]
      exact ih h

theorem assocGet_assocSet_self {β : Type} (ch : List (Atom × β)) (a : Atom) (n : β) :
    assocGet (assocSet ch a n) a = some n := by
  induction ch with
  | nil => simp [assocSet, assocGet_cons]
  | cons e ch ih =>
    obtain ⟨b, m⟩ := e
    by_cases hba : b = a
    · simp [assocSet, hba, assocGet_cons]
    · simp only [assocSet, if_neg hba, assocGet_cons]
      exact ih

theorem assocGet_assocSet_ne {β : Type} (ch : List (Atom × β)) {a b : Atom} (n : β)
    (hne : b ≠ a) : assocGet (assocSet ch a n) b = assocGet ch b := by
  induction ch with
  | nil =>
    simp only [assocSet, assocGet_cons, assocGet_nil]
    rw [if_neg (fun h => hne h.symm)]
  | cons e ch ih =>
    obtain ⟨c, m⟩ := e
    by_cases hca : c = a
    · subst hca
      have h1 : assocSet ((c, m) :: ch) c n = (c, n) :: ch := by
        simp [assocSet]
      rw [h1, assocGet_cons, assocGet_cons, if_neg (fun h => hne h.symm),
          if_neg (fun h => hne h.symm)]
    · simp only [assocSet, if_neg hca, assocGet_cons]
      by_cases hcb : c = b <;> simp [hcb, ih]

theorem mem_of_assocGet_eq_some {β : Type} {ch : List (Atom × β)} {a : Atom} {n : β}
    (h : assocGet ch a = some n) : (a, n) ∈ ch := by
  induction ch with
  | nil => simp at h
  | cons e ch ih =>
    obtain ⟨b, m⟩ := e
    rw [assocGet_cons] at h
    by_cases hba : b = a
    · rw [if_pos hba] at h
      cases h
      subst hba
      exact List.mem_cons_self _ _
    · rw [if_neg hba] at h
      exact List.mem_cons_of_mem _ (ih h)

@[simp]
theorem findVal_empty {V} (as : List Atom) : (Node.empty : Node V).findVal as = none := by
  cases as <;> rfl

theorem findVal_mk_nil {V} (v : Option V) (ch) : (Node.mk v ch).findVal [] = v := rfl

theorem findVal_mk_cons {V} (v : Option V) (ch) (a : Atom) (rest : List Atom) :
    (Node.mk v ch).findVal (a :: rest) =
      match assocGet ch a with
      | none => none
      | some c => c.findVal rest := by
  simp only [Node.findVal, Node.findNode, Node.children_mk]
  cases assocGet ch a with
  | none => rfl
  | some c => rfl

theorem findVal_mk_cons_some {V} {v : Option V} {ch} {a : Atom} {c : Node V}
    (rest : List Atom) (h : assocGet ch a = some c) :
    (Node.mk v ch).findVal (a :: rest) = c.findVal rest := by
  rw [findVal_mk_cons, h]

theorem findVal_mk_cons_none {V} {v : Option V} {ch} {a : Atom}
    (rest : List Atom) (h : assocGet ch a = none) :
    (Node.mk v ch).findVal (a :: rest) = none := by
  rw [findVal_mk_cons, h]

/-- Effect of `__setitem__`'s walk on every lookup: the path that was written
now reads the written value, and every other path is untouched. -/
theorem findVal_setAtoms {V} (as : List Atom) :
    ∀ (n : Node V) (asK : List Atom) (v : Option V),
      (n.setAtoms asK v).findVal as = if as = asK then v else n.findVal as := by
  induction as with
  | nil =>
    intro n asK v
    obtain ⟨w, ch⟩ := n
    cases asK with
    | nil => simp [Node.setAtoms, findVal_mk_nil]
    | cons a rest =>
      rw [if_neg (by simp)]
      simp only [Node.setAtoms]
      cases assocGet ch a <;> simp [findVal_mk_nil]
  | cons b brest ih =>
    intro n asK v
    obtain ⟨w, ch⟩ := n
    cases asK with
    | nil =>
      rw [if_neg (by simp)]
      simp only [Node.setAtoms]
      rw [findVal_mk_cons, findVal_mk_cons]
    | cons a rest =>
      simp only [Node.setAtoms]
      by_cases hba : b = a
      · subst hba
        cases hget : assocGet ch b with
        | some c =>
          rw [findVal_mk_cons_some brest (assocGet_assocSet_self ch b (c.setAtoms rest v)),
              ih c rest v, findVal_mk_cons_some brest hget]
          by_cases hr : brest = rest
          · simp [hr]
          · rw [if_neg hr, if_neg (by simp [hr])]
        | none =>
          have h2 : assocGet (ch ++ [(b, Node.empty.setAtoms rest v)]) b
              = some (Node.empty.setAtoms rest v) := by
            rw [assocGet_append_of_none hget, assocGet_cons, if_pos rfl]
          rw [findVal_mk_cons_some brest h2, ih Node.empty rest v,
              findVal_mk_cons_none brest hget]
          by_cases hr : brest = rest
          · simp [hr]
          · rw [if_neg hr, if_neg (by simp [hr]), findVal_empty]
      · rw [if_neg (by simp [hba])]
        cases hget : assocGet ch a with
        | some c =>
          have h2 : assocGet (assocSet ch a (c.setAtoms rest v)) b = assocGet ch b :=
            assocGet_assocSet_ne ch _ hba
          cases hgb : assocGet ch b with
          | some d =>
            rw [findVal_mk_cons_some brest (h2.trans hgb), findVal_mk_cons_some brest hgb]
          | none =>
            rw [findVal_mk_cons_none brest (h2.trans hgb), findVal_mk_cons_none brest hgb]
        | none =>
          cases hgb : assocGet ch b with
          | some d =>
            rw [findVal_mk_cons_some brest (assocGet_append_of_some hgb _),
                findVal_mk_cons_some brest hgb]
          | none =>
            have h2 : assocGet (ch ++ [(a, Node.empty.setAtoms rest v)]) b = none := by
              rw [assocGet_append_of_none hgb, assocGet_cons,
                  if_neg (fun h => hba h.symm)]
              rfl
            rw [findVal_mk_cons_none brest h2, findVal_mk_cons_none brest hgb]

theorem iterCh_eq {V} (ch : List (Atom × Node V)) (k : PyKey) :
    Node.iterCh ch k = (ch.map (fun c => c.2.iter (appendAtom k c.1))).flatten := by
  induction ch with
  | nil => rfl
  | cons e rest ih =>
    obtain ⟨a, n⟩ := e
    rw [Node.iterCh, List.map_cons, List.flatten_cons, ih]

theorem iter_mk {V} (v : Option V) (ch) (k : PyKey) :
    (Node.mk v ch).iter k =
      (match v with
       | some x => [(k, x)]
       | none => []) ++
      (ch.map (fun c => c.2.iter (appendAtom k c.1))).flatten := by
  show (match v with
        | some x => [(k, x)]
        | none => []) ++ Node.iterCh ch k = _
  rw [iterCh_eq]

/-- Induction over a node and, recursively, its children. -/
theorem Node.memRec {V} {P : Node V → Prop}
    (h : ∀ (v : Option V) ch, (∀ a n, (a, n) ∈ ch → P n) → P (.mk v ch)) :
    ∀ n, P n
  | .mk v ch => h v ch (fun a n hm => Node.memRec h n)
termination_by n => sizeOf n
decreasing_by
  simp_wf
  have h1 := List.sizeOf_lt_of_mem hm
  simp at h1
  omega

theorem wfCh_eq_all {V} (kd : PyType) (ch : List (Atom × Node V)) :
    Node.wfCh kd ch = ch.all (fun c => AtomOK kd c.1 && c.2.wf kd) := by
  induction ch with
  | nil => rfl
  | cons e rest ih =>
    obtain ⟨a, n⟩ := e
    show (AtomOK kd a && Node.wf kd n && Node.wfCh kd rest) = _
    rw [List.all_cons, ih]

theorem wf_mk_iff {V} (kd : PyType) (v : Option V) (ch) :
    (Node.mk v ch).wf kd = true ↔
      (ch.map Prod.fst).Nodup ∧ ∀ a n, (a, n) ∈ ch → AtomOK kd a = true ∧ n.wf kd = true := by
  show (decide (ch.map Prod.fst).Nodup && Node.wfCh kd ch) = true ↔ _
  rw [wfCh_eq_all]
  simp only [Bool.and_eq_true, decide_eq_true_eq, List.all_eq_true]
  constructor
  · rintro ⟨h1, h2⟩
    refine ⟨h1, fun a n hm => ?_⟩
    simpa using h2 (a, n) hm
  · rintro ⟨h1, h2⟩
    refine ⟨h1, fun c hc => ?_⟩
    obtain ⟨a, n⟩ := c
    simpa using h2 a n hc

/-- In a dict with distinct keys, lookup of a member's key finds that member. -/
theorem assocGet_of_mem_nodup {β : Type} {ch : List (Atom × β)} {a : Atom} {c : β}
    (hac : (a, c) ∈ ch) (hnd : (ch.map Prod.fst).Nodup) : assocGet ch a = some c := by
  induction ch with
  | nil => cases hac
  | cons e ch ihch =>
    obtain ⟨b, m⟩ := e
    rw [List.map_cons, List.nodup_cons] at hnd
    rcases List.mem_cons.mp hac with heq | htail
    · cases heq
      rw [assocGet_cons, if_pos rfl]
    · have hbne : b ≠ a := by
        intro hba
        subst hba
        exact hnd.1 (List.mem_map.mpr ⟨(b, c), htail, rfl⟩)
      rw [assocGet_cons, if_neg hbne]
      exact ihch htail hnd.2

/-- Completeness of the generator: every path with an assigned value is
enumerated, with the key rebuilt by concatenation from the accumulator. -/
theorem mem_iter_of_findVal {V} (as : List Atom) :
    ∀ (n : Node V) (k0 : PyKey) (x : V), n.findVal as = some x →
      (as.foldl appendAtom k0, x) ∈ n.iter k0 := by
  induction as with
  | nil =>
    intro n k0 x h
    obtain ⟨v, ch⟩ := n
    rw [findVal_mk_nil] at h
    subst h
    rw [iter_mk]
    simp
  | cons a rest ih =>
    intro n k0 x h
    obtain ⟨v, ch⟩ := n
    cases hget : assocGet ch a with
    | none => rw [findVal_mk_cons_none rest hget] at h; cases h
    | some c =>
      rw [findVal_mk_cons_some rest hget] at h
      have hmem := ih c (appendAtom k0 a) x h
      rw [iter_mk, List.foldl_cons]
      apply List.mem_append_right
      rw [List.mem_flatten]
      exact ⟨c.iter (appendAtom k0 a),
        List.mem_map.mpr ⟨(a, c), mem_of_assocGet_eq_some hget, rfl⟩, hmem⟩

/-- Soundness of the generator on well-formed nodes: everything enumerated
comes from a path with an assigned value, made of atoms of the trie's kind. -/
theorem findVal_of_mem_iter {V} (kd : PyType) :
    ∀ (n : Node V), n.wf kd = true → ∀ (k0 : PyKey) (k' : PyKey) (x : V),
      (k', x) ∈ n.iter k0 →
      ∃ as, as.all (AtomOK kd) = true ∧ n.findVal as = some x ∧
        k' = as.foldl appendAtom k0 := by
  intro n
  induction n using Node.memRec with
  | h v ch ihc =>
    intro hwf k0 k' x hmem
    rw [iter_mk] at hmem
    rcases List.mem_append.mp hmem with hleft | hright
    · refine ⟨[], rfl, ?_, ?_⟩
      · cases v with
        | none => simp at hleft
        | some y =>
          simp at hleft
          rw [findVal_mk_nil, hleft.2]
      · cases v with
        | none => simp at hleft
        | some y => simp at hleft; simp [hleft.1]
    · rw [List.mem_flatten] at hright
      obtain ⟨l, hl, hkl⟩ := hright
      rw [List.mem_map] at hl
      obtain ⟨⟨a, c⟩, hac, rfl⟩ := hl
      obtain ⟨hnd, hok⟩ := (wf_mk_iff kd v ch).mp hwf
      obtain ⟨hoka, hwfc⟩ := hok a c hac
      obtain ⟨as, hasok, hval, hkey⟩ := ihc a c hac hwfc (appendAtom k0 a) k' x hkl
      refine ⟨a :: as, ?_, ?_, ?_⟩
      · simp [hoka, List.all_eq_true] at hasok ⊢
        exact fun b hb => hasok b hb
      · rw [findVal_mk_cons_some as (assocGet_of_mem_nodup hac hnd)]
        exact hval
      · rw [List.foldl_cons]
        exact hkey

theorem keyKind_appendAtom (k : PyKey) (a : Atom) : keyKind (appendAtom k a) = keyKind k := by
  cases k <;> cases a <;> rfl

theorem keyKind_foldl (as : List Atom) : ∀ (k0 : PyKey),
    keyKind (as.foldl appendAtom k0) = keyKind k0 := by
  induction as with
  | nil => intro k0; rfl
  | cons a rest ih =>
    intro k0
    rw [List.foldl_cons, ih, keyKind_appendAtom]

theorem string_eq_toString_of_length_one {s : String} (h : s.length = 1) :
    ∃ c, s = Char.toString c := by
  cases s with
  | mk d =>
    simp [String.length] at h
    cases d with
    | nil => simp at h
    | cons c rest =>
      cases rest with
      | nil => exact ⟨c, rfl⟩
      | cons d2 r2 => simp at h

theorem atomsWith_appendAtom_ok {kd : PyType} {a : Atom} (h : AtomOK kd a = true)
    (k : PyKey) (hk : keyKind k = kd) :
    atomsWith (some kd) (appendAtom k a) = atomsWith (some kd) k ++ [a] := by
  cases kd with
  | str =>
    cases k with
    | tup ts => simp [keyKind] at hk
    | str cs =>
      cases a with
      | t1 v => simp [AtomOK] at h
      | s v =>
        simp only [AtomOK, beq_iff_eq] at h
        obtain ⟨c, rfl⟩ := string_eq_toString_of_length_one h
        show atomsWith (some .str) (.str (cs ++ [c])) = _
        simp [atomsWith, elemStr]
  | tup =>
    cases k with
    | str cs => simp [keyKind] at hk
    | tup ts =>
      cases a with
      | s v => simp [AtomOK] at h
      | t1 v => simp [atomsWith, elemStr, appendAtom]

theorem encode_foldl {kd : PyType} (as : List Atom) :
    ∀ (k0 : PyKey), keyKind k0 = kd → as.all (AtomOK kd) = true →
      atomsWith (some kd) (as.foldl appendAtom k0) = atomsWith (some kd) k0 ++ as := by
  induction as with
  | nil => intro k0 _ _; simp
  | cons a rest ih =>
    intro k0 hk hall
    rw [List.all_cons, Bool.and_eq_true] at hall
    rw [List.foldl_cons, ih _ (by rw [keyKind_appendAtom]; exact hk) hall.2,
        atomsWith_appendAtom_ok hall.1 k0 hk]
    simp

@[simp]
theorem keyKind_emptyKey (kd : PyType) : keyKind (emptyKey kd) = kd := by
  cases kd <;> rfl

@[simp]
theorem atomsWith_emptyKey (kd : PyType) : atomsWith (some kd) (emptyKey kd) = [] := by
  cases kd <;> rfl

/-- Re-encoding a key decoded from in-kind atoms gives back the atoms. -/
theorem encode_decode {kd : PyType} {as : List Atom} (h : as.all (AtomOK kd) = true) :
    atomsWith (some kd) (as.foldl appendAtom (emptyKey kd)) = as := by
  rw [encode_foldl as (emptyKey kd) (keyKind_emptyKey kd) h, atomsWith_emptyKey]
  rfl

theorem decode_encode_str (cs : List Char) : ∀ (acc : List Char),
    (((cs.map Char.toString).map Atom.s).foldl appendAtom (.str acc)) = .str (acc ++ cs) := by
  induction cs with
  | nil => intro acc; simp
  | cons c rest ih =>
    intro acc
    simp only [List.map_cons, List.foldl_cons]
    show ((rest.map Char.toString).map Atom.s).foldl appendAtom
        (.str (acc ++ (Char.toString c).data)) = _
    rw [ih]
    have hd : (Char.toString c).data = [c] := rfl
    simp [hd]

theorem decode_encode_tup (ts : List String) : ∀ (acc : List String),
    ((ts.map Atom.t1).foldl appendAtom (.tup acc)) = .tup (acc ++ ts) := by
  induction ts with
  | nil => intro acc; simp
  | cons v rest ih =>
    intro acc
    simp only [List.map_cons, List.foldl_cons]
    show (rest.map Atom.t1).foldl appendAtom (.tup (acc ++ [v])) = _
    rw [ih]
    simp

/-- Decoding the encoding of a key of the trie's kind gives back the key. -/
theorem decode_encode {kd : PyType} {k : PyKey} (hk : keyKind k = kd) :
    (atomsWith (some kd) k).foldl appendAtom (emptyKey kd) = k := by
  cases k with
  | str cs =>
    cases kd with
    | tup => simp [keyKind] at hk
    | str =>
      show ((cs.map Char.toString).map Atom.s).foldl appendAtom (.str []) = _
      rw [decode_encode_str cs []]
      rfl
  | tup ts =>
    cases kd with
    | str => simp [keyKind] at hk
    | tup =>
      show (ts.map Atom.t1).foldl appendAtom (.tup []) = _
      rw [decode_encode_tup ts []]
      rfl

theorem atomsWith_all_ok {kd : PyType} {k : PyKey} (hk : keyKind k = kd) :
    (atomsWith (some kd) k).all (AtomOK kd) = true := by
  cases k with
  | str cs =>
    cases kd with
    | tup => simp [keyKind] at hk
    | str =>
      show (((cs.map Char.toString).map Atom.s).all (AtomOK .str)) = true
      rw [List.all_eq_true]
      intro a ha
      rw [List.mem_map] at ha
      obtain ⟨c0, hc0, rfl⟩ := ha
      rw [List.mem_map] at hc0
      obtain ⟨c, _, rfl⟩ := hc0
      show AtomOK .str (.s (Char.toString c)) = true
      have hd : (Char.toString c).data = [c] := rfl
      simp [AtomOK, String.length, hd]
  | tup ts =>
    cases kd with
    | str => simp [keyKind] at hk
    | tup =>
      show ((ts.map Atom.t1).all (AtomOK .tup)) = true
      rw [List.all_eq_true]
      intro a ha
      rw [List.mem_map] at ha
      obtain ⟨v, _, rfl⟩ := ha
      rfl

theorem findNode_cons {V} (v : Option V) (ch) (a : Atom) (rest : List Atom) :
    (Node.mk v ch).findNode (a :: rest) =
      match assocGet ch a with
      | none => none
      | some c => c.findNode rest := rfl

theorem findNode_append {V} (as1 : List Atom) : ∀ (n : Node V) (as2 : List Atom),
    n.findNode (as1 ++ as2) =
      match n.findNode as1 with
      | none => none
      | some m => m.findNode as2 := by
  induction as1 with
  | nil => intro n as2; rfl
  | cons a rest ih =>
    intro n as2
    obtain ⟨v, ch⟩ := n
    rw [List.cons_append, findNode_cons, findNode_cons]
    cases assocGet ch a with
    | none => rfl
    | some c => exact ih c as2

theorem findVal_append {V} (n : Node V) (as1 as2 : List Atom) :
    n.findVal (as1 ++ as2) =
      match n.findNode as1 with
      | none => none
      | some m => m.findVal as2 := by
  unfold Node.findVal
  rw [findNode_append]
  cases n.findNode as1 with
  | none => rfl
  | some m => rfl

theorem wf_findNode {V} (kd : PyType) (as : List Atom) :
    ∀ (n m : Node V), n.wf kd = true → n.findNode as = some m → m.wf kd = true := by
  induction as with
  | nil =>
    intro n m hwf h
    cases h
    exact hwf
  | cons a rest ih =>
    intro n m hwf h
    obtain ⟨v, ch⟩ := n
    rw [findNode_cons] at h
    cases hget : assocGet ch a with
    | none => rw [hget] at h; cases h
    | some c =>
      rw [hget] at h
      have hc := (wf_mk_iff kd v ch).mp hwf
      exact ih c m (hc.2 a c (mem_of_assocGet_eq_some hget)).2 h

/-- For a key of the trie's own kind, presence via `find` is the same as
appearing in the enumeration. -/
theorem find_iff_mem_iterate {V} {t : Trie V} {kd : PyType} (hwf : t.root.wf kd = true)
    (hty : t.ty = some kd) {k : PyKey} (hk : keyKind k = kd) (v : V) :
    t.find k = some v ↔ (k, v) ∈ t.iterate := by
  have hit : t.iterate = t.root.iter (emptyKey kd) := by
    unfold Trie.iterate
    rw [hty]
  have hfind : t.find k = t.root.findVal (atomsWith (some kd) k) := by
    unfold Trie.find
    rw [hty]
  rw [hit, hfind]
  constructor
  · intro h
    have hmem := mem_iter_of_findVal (atomsWith (some kd) k) t.root (emptyKey kd) v h
    rwa [decode_encode hk] at hmem
  · intro h
    obtain ⟨as, hok, hval, hkey⟩ := findVal_of_mem_iter kd t.root hwf (emptyKey kd) k v h
    have henc : atomsWith (some kd) k = as := by
      rw [hkey, encode_decode hok]
    rw [henc]
    exact hval

/-- `__setitem__` on a trie whose locked type matches the key's kind: always
succeeds, writes the key's path, and keeps (or re-locks to the same) type. -/
theorem setitem_eq_ok {V} (t : Trie V) (k : PyKey) (v : Option V)
    (hty : t.ty = some (keyKind k)) :
    t.setitem k v =
      .ok ⟨t.root.setAtoms (atomsWith (some (keyKind k)) k) v, some (keyKind k)⟩ := by
  unfold Trie.setitem
  by_cases hch : t.root.children.isEmpty
  · rw [if_pos hch]
  · rw [if_neg hch, if_neg (by simp [hty]), hty]

theorem keyAppend_kind {p k2 : PyKey} (h : keyKind k2 = keyKind p) :
    keyKind (keyAppend p k2) = keyKind p := by
  cases p <;> cases k2 <;> simp_all [keyKind, keyAppend]

theorem atomsWith_keyAppend {kd : PyType} {p k2 : PyKey} (hp : keyKind p = kd)
    (h2 : keyKind k2 = kd) :
    atomsWith (some kd) (keyAppend p k2) = atomsWith (some kd) p ++ atomsWith (some kd) k2 := by
  cases p with
  | str cs =>
    cases k2 with
    | tup => rw [← hp] at h2; cases h2
    | str cs2 =>
      cases hp
      simp [keyAppend, atomsWith, elemStr, keyKind]
  | tup ts =>
    cases k2 with
    | str => rw [← hp] at h2; cases h2
    | tup ts2 =>
      cases hp
      simp [keyAppend, atomsWith, elemStr, keyKind]

theorem isKeyPrefix_keyAppend {p k2 : PyKey} (h : keyKind k2 = keyKind p) :
    IsKeyPrefix p (keyAppend p k2) := by
  cases p with
  | str cs =>
    cases k2 with
    | tup ts2 => simp [keyKind] at h
    | str cs2 => exact ⟨cs2, rfl⟩
  | tup ts =>
    cases k2 with
    | str cs2 => simp [keyKind] at h
    | tup ts2 => exact ⟨ts2, rfl⟩

theorem exists_suffix_of_isKeyPrefix {p k : PyKey} (h : IsKeyPrefix p k) :
    ∃ k2, keyKind k2 = keyKind p ∧ k = keyAppend p k2 := by
  cases p with
  | str cs =>
    cases k with
    | tup => cases h
    | str ds =>
      obtain ⟨rest, hrest⟩ := h
      exact ⟨.str rest, rfl, by rw [keyAppend, hrest]⟩
  | tup ts =>
    cases k with
    | str => cases h
    | tup ds =>
      obtain ⟨rest, hrest⟩ := h
      exact ⟨.tup rest, rfl, by rw [keyAppend, hrest]⟩

theorem sortedByFreqDesc_def {α : Type} {l : List (α × Nat)} :
    SortedByFreqDesc l ↔ l.Pairwise (fun a b => b.2 ≤ a.2) := Iff.rfl

theorem insertDesc_perm {α : Type} (x : α × Nat) (l : List (α × Nat)) :
    (insertDesc x l).Perm (x :: l) := by
  induction l with
  | nil => rfl
  | cons y ys ih =>
    rw [insertDesc]
    by_cases h : y.2 ≤ x.2
    · rw [if_pos h]
    · rw [if_neg h]
      exact (ih.cons y).trans (List.Perm.swap x y ys)

theorem sortDesc_perm {α : Type} (l : List (α × Nat)) : (sortDesc l).Perm l := by
  induction l with
  | nil => rfl
  | cons x xs ih => exact (insertDesc_perm x (sortDesc xs)).trans (ih.cons x)

theorem mem_insertDesc {α : Type} {a x : α × Nat} {l : List (α × Nat)} :
    a ∈ insertDesc x l ↔ a = x ∨ a ∈ l := by
  rw [(insertDesc_perm x l).mem_iff, List.mem_cons]

theorem insertDesc_sorted {α : Type} (x : α × Nat) {l : List (α × Nat)}
    (h : SortedByFreqDesc l) : SortedByFreqDesc (insertDesc x l) := by
  rw [sortedByFreqDesc_def] at h ⊢
  induction l with
  | nil => simp [insertDesc]
  | cons y ys ih =>
    rw [List.pairwise_cons] at h
    rw [insertDesc]
    by_cases hxy : y.2 ≤ x.2
    · rw [if_pos hxy, List.pairwise_cons]
      refine ⟨?_, List.pairwise_cons.mpr h⟩
      intro z hz
      rcases List.mem_cons.mp hz with rfl | hzys
      · exact hxy
      · exact le_trans (h.1 z hzys) hxy
    · rw [if_neg hxy, List.pairwise_cons]
      refine ⟨?_, ih h.2⟩
      intro z hz
      rcases mem_insertDesc.mp hz with rfl | hzys
      · exact le_of_not_le hxy
      · exact h.1 z hzys

theorem sortDesc_sorted {α : Type} (l : List (α × Nat)) : SortedByFreqDesc (sortDesc l) := by
  induction l with
  | nil => exact List.Pairwise.nil
  | cons x xs ih => exact insertDesc_sorted x ih

theorem filter_insertDesc {α : Type} (x : α × Nat) (l : List (α × Nat)) (f : Nat) :
    (insertDesc x l).filter (fun e => e.2 == f) =
      if x.2 = f then x :: l.filter (fun e => e.2 == f)
      else l.filter (fun e => e.2 == f) := by
  induction l with
  | nil =>
    by_cases hx : x.2 = f
    · rw [if_pos hx]
      show [x].filter (fun e => e.2 == f) = [x]
      rw [List.filter_cons_of_pos (by simpa using hx), List.filter_nil]
    · rw [if_neg hx]
      show [x].filter (fun e => e.2 == f) = []
      rw [List.filter_cons_of_neg (by simpa using hx), List.filter_nil]
  | cons y ys ih =>
    rw [insertDesc]
    by_cases hxy : y.2 ≤ x.2
    · rw [if_pos hxy]
      by_cases hx : x.2 = f
      · rw [List.filter_cons_of_pos (by simpa using hx), if_pos hx]
      · rw [List.filter_cons_of_neg (by simpa using hx), if_neg hx]
    · rw [if_neg hxy]
      by_cases hy : y.2 = f
      · have hxf : ¬x.2 = f := by omega
        rw [List.filter_cons_of_pos (by simpa using hy), ih, if_neg hxf, if_neg hxf,
            List.filter_cons_of_pos (by simpa using hy)]
      · rw [List.filter_cons_of_neg (by simpa using hy), ih,
            List.filter_cons_of_neg (by simpa using hy)]

/-- Stability of the descending sort: the elements of any one frequency appear
in the sorted output exactly in their original relative order. -/
theorem filter_sortDesc {α : Type} (l : List (α × Nat)) (f : Nat) :
    (sortDesc l).filter (fun e => e.2 == f) = l.filter (fun e => e.2 == f) := by
  induction l with
  | nil => rfl
  | cons x xs ih =>
    rw [sortDesc, filter_insertDesc, List.filter_cons]
    by_cases hx : x.2 = f
    · rw [if_pos hx, ih]
      simp [hx]
    · rw [if_neg hx, ih]
      simp [hx]

/-- `__setitem__` raises `TypeError` whenever the root has children and the
key's kind disagrees with the locked type. -/
theorem setitem_kind_mismatch {V : Type} (t : Trie V) (k : PyKey) (v : Option V)
    (K : PyType) (hch : t.root.children ≠ []) (hty : t.ty = some K)
    (hk : keyKind k ≠ K) : t.setitem k v = .error .typeError := by
  unfold Trie.setitem
  rw [if_neg (by simpa [List.isEmpty_iff] using hch)]
  rw [if_pos ?hc]
  case hc =>
    refine ⟨by simp [hty], ?_⟩
    rw [hty]
    intro hh
    exact hk (Option.some.inj hh).symm

/-- C2 (amended): once the root has children — that is, once a key with at
least one atom has been successfully inserted — a set with a key whose kind
differs from the locked type raises `TypeError`. -/
theorem setitem_type_locked {V : Type} (t : Trie V) (k : PyKey) (v : Option V)
    (K : PyType) (hch : t.root.children ≠ []) (hty : t.ty = some K)
    (hk : keyKind k ≠ K) : t.setitem k v = .error .typeError :=
  setitem_kind_mismatch t k v K hch hty hk

/-- C2 counterexample: after inserting only the empty string key (so a key of
kind "string" has been inserted and the locked type is `str`), a subsequent set
with a tuple key does not raise — it succeeds and re-locks the type to `tuple`,
because `__setitem__` decides by `len(self.children) == 0`, which is still true
when only empty keys were ever inserted. -/
theorem setitem_not_locked_by_empty_key :
    tEmptyStrOnly.ty = some PyType.str ∧
    tEmptyStrOnly.getitem (strKey "") = .ok 1 ∧
    tEmptyStrOnly.setitem (PyKey.tup ["x"]) (some 2) =
      .ok ⟨Node.mk (some 1) [(Atom.t1 "x", Node.mk (some 2) [])], some PyType.tup⟩ :=
  ⟨rfl, rfl, rfl⟩

/-- Witness for the amended C2 theorem at a concrete input. -/
theorem setitem_type_locked_witness :
    (tA.root.children ≠ [] ∧ tA.ty = some PyType.str ∧
      keyKind (PyKey.tup ["x"]) ≠ PyType.str) ∧
    tA.setitem (PyKey.tup ["x"]) (some 5) = .error .typeError := by
  refine ⟨⟨fun h => List.noConfusion h, rfl, fun h => PyType.noConfusion h⟩, ?_⟩
  exact setitem_type_locked tA (PyKey.tup ["x"]) (some 5) PyType.str
    (fun h => List.noConfusion h) rfl (fun h => PyType.noConfusion h)

/-- C3: on a trie whose locked type matches the key's kind, `set(k, v)` always
succeeds, and immediately afterwards `get(k)` returns `v` and `contains(k)` is
true. -/
theorem set_get_roundtrip {V : Type} (t : Trie V) (k : PyKey) (v : V)
    (hty : t.ty = some (keyKind k)) :
    ∃ t', t.setitem k (some v) = .ok t' ∧ t'.getitem k = .ok v ∧ t'.contains k = true := by
  have hf : (⟨t.root.setAtoms (atomsWith (some (keyKind k)) k) (some v),
      some (keyKind k)⟩ : Trie V).find k = some v := by
    show (t.root.setAtoms (atomsWith (some (keyKind k)) k) (some v)).findVal
      (atomsWith (some (keyKind k)) k) = some v
    rw [findVal_setAtoms, if_pos rfl]
  refine ⟨_, setitem_eq_ok t k (some v) hty, ?_, ?_⟩
  · unfold Trie.getitem
    rw [if_neg (by simp), hf]
  · unfold Trie.contains
    rw [hf]
    rfl

/-- Witness for the C3 theorem at a concrete input. -/
theorem set_get_roundtrip_witness :
    (tA.ty = some (keyKind (strKey "b"))) ∧
    ∃ t', tA.setitem (strKey "b") (some 7) = .ok t' ∧
      t'.getitem (strKey "b") = .ok 7 ∧ t'.contains (strKey "b") = true :=
  ⟨rfl, set_get_roundtrip tA (strKey "b") 7 rfl⟩

/-- C10: on an untyped trie (no key ever inserted), both `autocomplete` and
`autocorrect` raise `TypeError` for every prefix of either kind, rather than
returning an empty result: `find_completes_prefix` compares `type(prefix)`
against the trie's `None` type. -/
theorem untyped_trie_queries_raise (t : Trie Nat) (hty : t.ty = none)
    (p : PyKey) (mc : Option Nat) :
    autocomplete t p mc = .error .typeError ∧
    ∀ out, AutocorrectOut t p mc out → out = .error .typeError := by
  have hfcp : find_completes_prefix t p mc = .error .typeError := by
    unfold find_completes_prefix
    rw [if_pos (by simp [hty])]
  have hac : autocomplete t p mc = .error .typeError := by
    unfold autocomplete
    rw [hfcp]
  refine ⟨hac, fun out hout => ?_⟩
  unfold AutocorrectOut at hout
  rw [hac] at hout
  exact hout

/-- Witness for the C10 theorem at a concrete input. -/
theorem untyped_trie_queries_raise_witness :
    (Trie.empty : Trie Nat).ty = none ∧
    autocomplete Trie.empty (strKey "a") none = .error .typeError ∧
    ∀ out, AutocorrectOut Trie.empty (strKey "a") none out →
      out = .error .typeError := by
  obtain ⟨h1, h2⟩ := untyped_trie_queries_raise Trie.empty rfl (strKey "a") none
  exact ⟨rfl, h1, h2⟩

theorem trie_wf_root {V : Type} {t : Trie V} {kd : PyType} (hwf : t.wf = true)
    (hty : t.ty = some kd) : t.root.wf kd = true := by
  unfold Trie.wf at hwf
  rw [hty] at hwf
  exact hwf

theorem mem_map_fst {α β : Type} {l : List (α × β)} {k : α} :
    k ∈ l.map Prod.fst ↔ ∃ v, (k, v) ∈ l := by
  rw [List.mem_map]
  constructor
  · rintro ⟨⟨a, b⟩, hm, rfl⟩
    exact ⟨b, hm⟩
  · rintro ⟨v, hm⟩
    exact ⟨(k, v), hm, rfl⟩

/-- C6: every list `find_completes_prefix` returns is sorted by frequency
descending, and — for the full (untruncated) ranked list — the entries of any
one frequency appear exactly in the order the depth-first, insertion-order
enumeration produced them: Python's sort is stable. -/
theorem autocomplete_ranking (t : Trie Nat) (p : PyKey) :
    (∀ mc l, find_completes_prefix t p mc = .ok l → SortedByFreqDesc l) ∧
    (∀ l, find_completes_prefix t p none = .ok l →
      ∀ f, l.filter (fun e => e.2 == f) =
        (dfsCompletions t p).filter (fun e => e.2 == f)) := by
  constructor
  · intro mc l h
    unfold find_completes_prefix at h
    by_cases hty : t.ty ≠ some (keyKind p)
    · rw [if_pos hty] at h
      cases h
    · rw [if_neg hty] at h
      cases hw : t.root.findNode (atomsWith t.ty p) with
      | none =>
        rw [hw] at h
        simp only [Except.ok.injEq] at h
        subst h
        exact List.Pairwise.nil
      | some m =>
        rw [hw] at h
        cases mc with
        | none =>
          simp only [Except.ok.injEq] at h
          subst h
          exact sortDesc_sorted _
        | some n =>
          simp only [Except.ok.injEq] at h
          subst h
          exact List.Pairwise.sublist (List.take_sublist n _) (sortDesc_sorted _)
  · intro l h f
    unfold find_completes_prefix at h
    by_cases hty : t.ty ≠ some (keyKind p)
    · rw [if_pos hty] at h
      cases h
    · rw [if_neg hty] at h
      cases hw : t.root.findNode (atomsWith t.ty p) with
      | none =>
        rw [hw] at h
        simp only [Except.ok.injEq] at h
        subst h
        unfold dfsCompletions
        rw [hw]
      | some m =>
        rw [hw] at h
        simp only [Except.ok.injEq] at h
        subst h
        exact filter_sortDesc _ f

/-- Witness for the C6 theorem at a concrete input. -/
theorem autocomplete_ranking_witness :
    find_completes_prefix tBat (strKey "ba") none =
      .ok [(strKey "bat", 2), (strKey "bar", 1), (strKey "bark", 1)] ∧
    SortedByFreqDesc [((strKey "bat" : PyKey), (2 : Nat)), (strKey "bar", 1), (strKey "bark", 1)] ∧
    ∀ f, ([((strKey "bat" : PyKey), (2 : Nat)), (strKey "bar", 1), (strKey "bark", 1)]).filter
        (fun e => e.2 == f) =
      (dfsCompletions tBat (strKey "ba")).filter (fun e => e.2 == f) := by
  refine ⟨rfl, ?_, ?_⟩
  · exact (autocomplete_ranking tBat (strKey "ba")).1 none _ rfl
  · exact (autocomplete_ranking tBat (strKey "ba")).2 _ rfl

/-- On a well-formed trie, the pre-sort completion list holds exactly the
present keys extending the prefix, with their stored frequencies. -/
theorem mem_dfsCompletions_iff {t : Trie Nat} {p : PyKey} {kd : PyType} {m : Node Nat}
    (hwf : t.root.wf kd = true) (hty : t.ty = some kd) (hk : keyKind p = kd)
    (hw : t.root.findNode (atomsWith (some kd) p) = some m) (k : PyKey) (v : Nat) :
    (k, v) ∈ dfsCompletions t p ↔ t.find k = some v ∧ IsKeyPrefix p k := by
  have hmwf : m.wf kd = true := wf_findNode kd _ t.root m hwf hw
  have hemp : emptyKey (keyKind p) = emptyKey kd := by rw [hk]
  unfold dfsCompletions
  rw [hty, hw]
  show (k, v) ∈ (m.iter (emptyKey (keyKind p))).map (fun kv => (keyAppend p kv.1, kv.2)) ↔ _
  constructor
  · intro hmem
    rw [List.mem_map] at hmem
    obtain ⟨⟨k0, v0⟩, hmem0, heq⟩ := hmem
    cases heq
    obtain ⟨as, hok, hval, hkey⟩ :=
      findVal_of_mem_iter kd m hmwf (emptyKey (keyKind p)) k0 v0 hmem0
    have hkk0 : keyKind k0 = kd := by
      rw [hkey, keyKind_foldl, keyKind_emptyKey, hk]
    have hask : atomsWith (some kd) k0 = as := by
      rw [hkey, hemp]
      exact encode_decode hok
    refine ⟨?_, ?_⟩
    · unfold Trie.find
      rw [hty, atomsWith_keyAppend hk hkk0, findVal_append, hw, hask]
      exact hval
    · exact isKeyPrefix_keyAppend (by rw [hkk0, hk])
  · rintro ⟨hfind, hpre⟩
    obtain ⟨k2, hk2, rfl⟩ := exists_suffix_of_isKeyPrefix hpre
    have hkk2 : keyKind k2 = kd := by rw [hk2, hk]
    unfold Trie.find at hfind
    rw [hty, atomsWith_keyAppend hk hkk2, findVal_append, hw] at hfind
    have hmem0 := mem_iter_of_findVal _ m (emptyKey (keyKind p)) v hfind
    have hdec : (atomsWith (some kd) k2).foldl appendAtom (emptyKey (keyKind p)) = k2 := by
      rw [hemp]
      exact decode_encode hkk2
    rw [hdec] at hmem0
    rw [List.mem_map]
    exact ⟨(k2, v), hmem0, rfl⟩

theorem fcp_bound_complete (t : Trie Nat) (p : PyKey) (kd : PyType)
    (hwf : t.wf = true) (hty : t.ty = some kd) (hk : keyKind p = kd) :
    (∀ n l, find_completes_prefix t p (some n) = .ok l → l.length ≤ n) ∧
    (∀ l, find_completes_prefix t p none = .ok l →
      ∀ k, k ∈ l.map Prod.fst ↔ (∃ v, t.find k = some v) ∧ IsKeyPrefix p k) ∧
    (t.root.findNode (atomsWith t.ty p) = none →
      ∀ mc, find_completes_prefix t p mc = .ok []) := by
  have htyp : ¬t.ty ≠ some (keyKind p) := by simp [hty, hk]
  refine ⟨?_, ?_, ?_⟩
  · intro n l h
    unfold find_completes_prefix at h
    rw [if_neg htyp] at h
    cases hw : t.root.findNode (atomsWith t.ty p) with
    | none =>
      rw [hw] at h
      simp only [Except.ok.injEq] at h
      subst h
      simp
    | some m =>
      rw [hw] at h
      simp only [Except.ok.injEq] at h
      subst h
      rw [List.length_take]
      exact Nat.min_le_left n _
  · intro l h k
    unfold find_completes_prefix at h
    rw [if_neg htyp] at h
    cases hw : t.root.findNode (atomsWith t.ty p) with
    | none =>
      rw [hty] at hw
      rw [hty, hw] at h
      simp only [Except.ok.injEq] at h
      subst h
      simp only [List.map_nil, List.not_mem_nil, false_iff]
      rintro ⟨⟨v, hv⟩, hpre⟩
      obtain ⟨k2, hk2, rfl⟩ := exists_suffix_of_isKeyPrefix hpre
      have hkk2 : keyKind k2 = kd := by rw [hk2, hk]
      have hnone : t.find (keyAppend p k2) = none := by
        unfold Trie.find
        rw [hty, atomsWith_keyAppend hk hkk2, findVal_append, hw]
      rw [hnone] at hv
      cases hv
    | some m =>
      rw [hty] at hw
      rw [hty, hw] at h
      simp only [Except.ok.injEq] at h
      subst h
      rw [mem_map_fst]
      have hperm := sortDesc_perm (dfsCompletions t p)
      constructor
      · rintro ⟨v, hv⟩
        have hvdfs : (k, v) ∈ dfsCompletions t p := hperm.subset hv
        obtain ⟨h1, h2⟩ :=
          (mem_dfsCompletions_iff (trie_wf_root hwf hty) hty hk hw k v).mp hvdfs
        exact ⟨⟨v, h1⟩, h2⟩
      · rintro ⟨⟨v, hv⟩, hpre⟩
        refine ⟨v, hperm.mem_iff.mpr ?_⟩
        exact (mem_dfsCompletions_iff (trie_wf_root hwf hty) hty hk hw k v).mpr ⟨hv, hpre⟩
  · intro hw mc
    unfold find_completes_prefix
    rw [if_neg htyp, hw]

/-- C9: with a count `n`, `autocomplete` returns at most `n` keys; with the
count omitted, it returns exactly the present keys extending the prefix; and
when the prefix walk hits a missing atom, the result is the empty list. -/
theorem autocomplete_bound_complete (t : Trie Nat) (p : PyKey) (kd : PyType)
    (hwf : t.wf = true) (hty : t.ty = some kd) (hk : keyKind p = kd) :
    (∀ n l, autocomplete t p (some n) = .ok l → l.length ≤ n) ∧
    (∀ l, autocomplete t p none = .ok l →
      ∀ k, k ∈ l ↔ (∃ v, t.find k = some v) ∧ IsKeyPrefix p k) ∧
    (t.root.findNode (atomsWith t.ty p) = none →
      ∀ mc, autocomplete t p mc = .ok []) := by
  obtain ⟨h1, h2, h3⟩ := fcp_bound_complete t p kd hwf hty hk
  refine ⟨?_, ?_, ?_⟩
  · intro n l h
    unfold autocomplete at h
    cases hfcp : find_completes_prefix t p (some n) with
    | error e => rw [hfcp] at h; cases h
    | ok l0 =>
      rw [hfcp] at h
      simp only [Except.ok.injEq] at h
      subst h
      rw [List.length_map]
      exact h1 n l0 hfcp
  · intro l h k
    unfold autocomplete at h
    cases hfcp : find_completes_prefix t p none with
    | error e => rw [hfcp] at h; cases h
    | ok l0 =>
      rw [hfcp] at h
      simp only [Except.ok.injEq] at h
      subst h
      exact h2 l0 hfcp k
  · intro hw mc
    unfold autocomplete
    rw [h3 hw mc]
    rfl

/-- Witness for the C9 theorem at a concrete input. -/
theorem autocomplete_bound_complete_witness :
    (tBat.wf = true ∧ tBat.ty = some PyType.str ∧ keyKind (strKey "ba") = PyType.str) ∧
    (∀ n l, autocomplete tBat (strKey "ba") (some n) = .ok l → l.length ≤ n) ∧
    (∀ l, autocomplete tBat (strKey "ba") none = .ok l →
      ∀ k, k ∈ l ↔ (∃ v, tBat.find k = some v) ∧ IsKeyPrefix (strKey "ba") k) ∧
    (tBat.root.findNode (atomsWith tBat.ty (strKey "ba")) = none →
      ∀ mc, autocomplete tBat (strKey "ba") mc = .ok []) := by
  refine ⟨⟨rfl, rfl, rfl⟩, ?_⟩
  exact autocomplete_bound_complete tBat (strKey "ba") PyType.str rfl rfl rfl

theorem mem_lowercase {c : Char} : c ∈ lowercase ↔ IsLowerAlpha c := by
  constructor
  · intro h
    fin_cases h <;> exact ⟨by decide, by decide⟩
  · rintro ⟨h1, h2⟩
    have hn1 : 97 ≤ c.toNat := h1
    have hn2 : c.toNat ≤ 122 := h2
    have hc : Char.ofNat c.toNat = c := Char.ofNat_toNat c
    set n := c.toNat with hn
    interval_cases n <;> (rw [← hc]; decide)

theorem mem_edit_insert {p s : List Char} : s ∈ edit_insert p ↔ IsInsertionOf p s := by
  unfold edit_insert IsInsertionOf
  rw [List.mem_flatMap]
  constructor
  · rintro ⟨i, hi, hs⟩
    rw [List.mem_range] at hi
    rw [List.mem_map] at hs
    obtain ⟨c, hc, rfl⟩ := hs
    exact ⟨i, c, by omega, mem_lowercase.mp hc, rfl⟩
  · rintro ⟨i, c, hi, hc, rfl⟩
    exact ⟨i, List.mem_range.mpr (by omega),
      List.mem_map.mpr ⟨c, mem_lowercase.mpr hc, rfl⟩⟩

theorem mem_edit_delete {p s : List Char} : s ∈ edit_delete p ↔ IsDeletionOf p s := by
  unfold edit_delete IsDeletionOf
  rw [List.mem_map]
  constructor
  · rintro ⟨i, hi, rfl⟩
    rw [List.mem_range] at hi
    exact ⟨i, hi, rfl⟩
  · rintro ⟨i, hi, rfl⟩
    exact ⟨i, List.mem_range.mpr hi, rfl⟩

theorem mem_edit_replace {p s : List Char} : s ∈ edit_replace p ↔ IsSubstitutionOf p s := by
  unfold edit_replace IsSubstitutionOf
  rw [List.mem_flatMap]
  constructor
  · rintro ⟨i, hi, hs⟩
    rw [List.mem_range] at hi
    rw [List.mem_map] at hs
    obtain ⟨c, hc, rfl⟩ := hs
    exact ⟨i, c, hi, mem_lowercase.mp hc, rfl⟩
  · rintro ⟨i, c, hi, hc, rfl⟩
    exact ⟨i, List.mem_range.mpr hi,
      List.mem_map.mpr ⟨c, mem_lowercase.mpr hc, rfl⟩⟩

theorem mem_edit_transpose {p s : List Char} : s ∈ edit_transpose p ↔ IsTranspositionOf p s := by
  unfold edit_transpose IsTranspositionOf
  rw [List.mem_filterMap]
  constructor
  · rintro ⟨i, hi, hs⟩
    rw [List.mem_range] at hi
    by_cases h0 : 0 < i
    · rw [if_pos h0] at hs
      obtain rfl := Option.some.inj hs
      refine ⟨i - 1, by omega, ?_⟩
      unfold swapAdj
      have e1 : i - 1 + 1 = i := by omega
      have e2 : i - 1 + 2 = i + 1 := by omega
      rw [e1, e2]
    · rw [if_neg h0] at hs
      cases hs
  · rintro ⟨j, hj, rfl⟩
    refine ⟨j + 1, List.mem_range.mpr (by omega), ?_⟩
    rw [if_pos (by omega)]
    unfold swapAdj
    have e1 : j + 1 - 1 = j := by omega
    have e2 : j + 1 + 1 = j + 2 := by omega
    rw [e1, e2]

/-- The transposition loop enumerates exactly the swap at each adjacent
position pair `(j, j+1)` for `j` in `0..len-2`, each exactly once. -/
theorem edit_transpose_eq_map (p : List Char) :
    edit_transpose p = (List.range (p.length - 1)).map (swapAdj p) := by
  unfold edit_transpose
  cases hl : p.length with
  | zero => rfl
  | succ n =>
    rw [List.range_succ_eq_map, List.filterMap_cons]
    have h0 : ¬(0 : Nat) > 0 := by omega
    rw [if_neg h0]
    rw [List.filterMap_map]
    have hfn : (fun j : Nat =>
        (if 0 < j + 1 then
          some (p.take (j + 1 - 1) ++ [p.getD (j + 1) ' ', p.getD (j + 1 - 1) ' '] ++
            p.drop (j + 1 + 1))
        else none)) = fun j : Nat => some (swapAdj p j) := by
      funext j
      rw [if_pos (by omega)]
      unfold swapAdj
      have e1 : j + 1 - 1 = j := by omega
      have e2 : j + 1 + 1 = j + 2 := by omega
      rw [e1, e2]
    have hn : n + 1 - 1 = n := by omega
    rw [hn]
    calc List.filterMap
          ((fun i => if 0 < i then
              some (p.take (i - 1) ++ [p.getD i ' ', p.getD (i - 1) ' '] ++ p.drop (i + 1))
            else none) ∘ Nat.succ) (List.range n)
        = List.filterMap (fun j : Nat => some (swapAdj p j)) (List.range n) := by
          rw [show ((fun i => if 0 < i then
              some (p.take (i - 1) ++ [p.getD i ' ', p.getD (i - 1) ' '] ++ p.drop (i + 1))
            else none) ∘ Nat.succ) = fun j : Nat => some (swapAdj p j) from hfn]
      _ = (List.range n).map (swapAdj p) := by
          rw [show (fun j : Nat => some (swapAdj p j)) = some ∘ swapAdj p from rfl,
            List.filterMap_eq_map]

/-- C7: the candidate set generated by autocorrect's edit step holds exactly
the strings at edit distance one from the prefix over the lowercase alphabet —
every insertion (both ends included), deletion, substitution, and adjacent
transposition — and the transposition formula covers the swap at each adjacent
position pair exactly once. -/
theorem possible_edits_characterization (p : List Char) :
    (∀ s, s ∈ possible_edits p ↔
      IsInsertionOf p s ∨ IsDeletionOf p s ∨ IsSubstitutionOf p s ∨
        IsTranspositionOf p s) ∧
    edit_transpose p = (List.range (p.length - 1)).map (swapAdj p) := by
  refine ⟨?_, edit_transpose_eq_map p⟩
  intro s
  unfold possible_edits
  rw [List.mem_toFinset, List.mem_append, List.mem_append, List.mem_append]
  rw [mem_edit_insert, mem_edit_delete, mem_edit_replace, mem_edit_transpose]
  tauto

theorem char_toString_inj {a b : Char} (h : Char.toString a = Char.toString b) : a = b := by
  have h2 := congrArg String.data h
  have ha : (Char.toString a).data = [a] := rfl
  have hb : (Char.toString b).data = [b] := rfl
  rw [ha, hb] at h2
  injection h2

theorem is_match_nil (pat : List Char) :
    is_match [] pat = pat.all (fun p => p == '*') := by
  rw [is_match.eq_def]

theorem is_match_cons_nil (c : String) (ws : List String) :
    is_match (c :: ws) [] = false := by
  rw [is_match.eq_def]

theorem is_match_cons_cons (c : String) (ws : List String) (p : Char) (ps : List Char) :
    is_match (c :: ws) (p :: ps) =
      if p ≠ '*' then ((p == '?') || (p.toString == c)) && is_match ws ps
      else (is_match (c :: ws) ps || is_match ws (p :: ps)) := by
  rw [is_match.eq_def]

/-- Inversion for the glob relation, with the indices freed. -/
theorem glob_inv {ps w : List Char} (h : GlobMatches ps w) :
    (ps = [] ∧ w = []) ∨
    (∃ p ps' c ws, ps = p :: ps' ∧ w = c :: ws ∧ p ≠ '*' ∧ (p = '?' ∨ p = c) ∧
      GlobMatches ps' ws) ∨
    (∃ ps' w1 w2, ps = '*' :: ps' ∧ w = w1 ++ w2 ∧ GlobMatches ps' w2) := by
  cases h with
  | nil => exact Or.inl ⟨rfl, rfl⟩
  | one hne hpc ht => exact Or.inr (Or.inl ⟨_, _, _, _, rfl, rfl, hne, hpc, ht⟩)
  | star h2 => exact Or.inr (Or.inr ⟨_, _, _, rfl, rfl, h2⟩)

theorem glob_nil_iff {ps : List Char} :
    GlobMatches ps [] ↔ ps.all (fun p => p == '*') = true := by
  induction ps with
  | nil =>
    simp only [List.all_nil]
    exact ⟨fun _ => trivial, fun _ => .nil⟩
  | cons p rest ih =>
    constructor
    · intro h
      rcases glob_inv h with ⟨h1, _⟩ | ⟨_, _, _, _, _, h2, _⟩ | ⟨ps', w1, w2, h1, h2, h3⟩
      · cases h1
      · cases h2
      · obtain ⟨hp, hps'⟩ : p = '*' ∧ rest = ps' := by
          rw [List.cons.injEq] at h1
          exact ⟨h1.1, h1.2⟩
        subst hp
        subst hps'
        obtain ⟨hw1, hw2⟩ := List.append_eq_nil.mp h2.symm
        subst hw2
        rw [List.all_cons, Bool.and_eq_true]
        exact ⟨by simp, ih.mp h3⟩
    · intro h
      rw [List.all_cons, Bool.and_eq_true] at h
      obtain ⟨hp, hrest⟩ := h
      have hps : p = '*' := by simpa using hp
      subst hps
      exact @GlobMatches.star rest [] [] (ih.mpr hrest)

theorem glob_star_iff {ps : List Char} {w : List Char} :
    GlobMatches ('*' :: ps) w ↔ ∃ w1 w2, w = w1 ++ w2 ∧ GlobMatches ps w2 := by
  constructor
  · intro h
    rcases glob_inv h with ⟨h1, _⟩ | ⟨p, ps', c, ws, h1, _, hne, _, _⟩ |
      ⟨ps', w1, w2, h1, h2, h3⟩
    · cases h1
    · rw [List.cons.injEq] at h1
      exact absurd h1.1.symm hne
    · rw [List.cons.injEq] at h1
      obtain ⟨_, hps⟩ := h1
      subst hps
      exact ⟨w1, w2, h2, h3⟩
  · rintro ⟨w1, w2, rfl, h⟩
    exact .star h

theorem glob_cons_lit_iff {p : Char} {ps : List Char} {c : Char} {ws : List Char}
    (hp : p ≠ '*') :
    GlobMatches (p :: ps) (c :: ws) ↔ (p = '?' ∨ p = c) ∧ GlobMatches ps ws := by
  constructor
  · intro h
    rcases glob_inv h with ⟨h1, _⟩ | ⟨p', ps', c', ws', h1, h2, hne, hpc, ht⟩ |
      ⟨ps', w1, w2, h1, _, _⟩
    · cases h1
    · rw [List.cons.injEq] at h1 h2
      obtain ⟨hp1, hps1⟩ := h1
      obtain ⟨hc1, hws1⟩ := h2
      subst hp1
      subst hps1
      subst hc1
      subst hws1
      exact ⟨hpc, ht⟩
    · rw [List.cons.injEq] at h1
      exact absurd h1.1 hp
  · rintro ⟨hpc, h⟩
    exact .one hp hpc h

theorem glob_equiv_aux : ∀ (N : Nat) (pat w : List Char), w.length + pat.length ≤ N →
    (is_match (w.map Char.toString) pat = true ↔ GlobMatches pat w) := by
  intro N
  induction N with
  | zero =>
    intro pat w h
    have hw : w = [] := List.eq_nil_of_length_eq_zero (by omega)
    subst hw
    rw [List.map_nil, is_match_nil]
    exact glob_nil_iff.symm
  | succ n ih =>
    intro pat w hlen
    cases w with
    | nil =>
      rw [List.map_nil, is_match_nil]
      exact glob_nil_iff.symm
    | cons c ws =>
      cases pat with
      | nil =>
        rw [List.map_cons, is_match_cons_nil]
        constructor
        · intro h
          exact absurd h (by simp)
        · intro h
          cases h
      | cons p ps =>
        rw [List.map_cons, is_match_cons_cons]
        by_cases hp : p = '*'
        · subst hp
          rw [if_neg (by simp), Bool.or_eq_true]
          constructor
          · rintro (h1 | h2)
            · have hg := (ih ps (c :: ws) (by simp at hlen ⊢; omega)).mp h1
              exact glob_star_iff.mpr ⟨[], c :: ws, rfl, hg⟩
            · have hg := (ih ('*' :: ps) ws (by simp at hlen ⊢; omega)).mp h2
              obtain ⟨w1, w2, rfl, hg2⟩ := glob_star_iff.mp hg
              exact glob_star_iff.mpr ⟨c :: w1, w2, rfl, hg2⟩
          · intro hg
            obtain ⟨w1, w2, heq, hg2⟩ := glob_star_iff.mp hg
            cases w1 with
            | nil =>
              left
              rw [List.nil_append] at heq
              subst heq
              exact (ih ps (c :: ws) (by simp at hlen ⊢; omega)).mpr hg2
            | cons d w1' =>
              right
              rw [List.cons_append] at heq
              injection heq with hcd hws
              apply (ih ('*' :: ps) ws (by simp at hlen ⊢; omega)).mpr
              rw [hws]
              exact glob_star_iff.mpr ⟨w1', w2, rfl, hg2⟩
        · rw [if_pos hp, Bool.and_eq_true, Bool.or_eq_true, glob_cons_lit_iff hp]
          constructor
          · rintro ⟨h1, h2⟩
            refine ⟨?_, (ih ps ws (by simp at hlen ⊢; omega)).mp h2⟩
            rcases h1 with h1 | h1
            · left
              simpa using h1
            · right
              have hst : p.toString = c.toString := by simpa using h1
              exact char_toString_inj hst
          · rintro ⟨h1, h2⟩
            refine ⟨?_, (ih ps ws (by simp at hlen ⊢; omega)).mpr h2⟩
            rcases h1 with rfl | rfl
            · left
              simp
            · right
              simp

/-- The source's recursive matcher agrees with the spec's standard glob
semantics on string keys (word elements are the one-character strings the
Python code compares against pattern characters). -/
theorem glob_equiv (pat w : List Char) :
    is_match (w.map Char.toString) pat = true ↔ GlobMatches pat w :=
  glob_equiv_aux (w.length + pat.length) pat w (le_refl _)

/-- C4: `word_filter` returns exactly the (key, frequency) pairs of the trie
whose key matches the pattern under standard glob semantics, as a sublist of
the trie's depth-first enumeration (so in enumeration order, with no
frequency sort); on a string-keyed trie every enumerated key is a string
key. -/
theorem word_filter_correct (t : Trie Nat) (hwf : t.wf = true)
    (hty : t.ty = some PyType.str) (pat : List Char) :
    (word_filter t pat).Sublist t.iterate ∧
    (∀ kv, kv ∈ t.iterate → ∃ cs f, kv = (PyKey.str cs, f)) ∧
    (∀ cs f, (PyKey.str cs, f) ∈ word_filter t pat ↔
      (PyKey.str cs, f) ∈ t.iterate ∧ GlobMatches pat cs) := by
  refine ⟨List.filter_sublist _, ?_, ?_⟩
  · intro kv hkv
    have hkv2 : kv ∈ t.root.iter (emptyKey .str) := by
      unfold Trie.iterate at hkv
      rwa [hty] at hkv
    obtain ⟨k, f⟩ := kv
    obtain ⟨as, hok, hval, hkey⟩ :=
      findVal_of_mem_iter PyType.str t.root (trie_wf_root hwf hty) (emptyKey .str) k f hkv2
    have hkind : keyKind k = .str := by
      rw [hkey, keyKind_foldl]
      rfl
    cases k with
    | str cs => exact ⟨cs, f, rfl⟩
    | tup ts => simp [keyKind] at hkind
  · intro cs f
    unfold word_filter
    rw [List.mem_filter]
    constructor
    · rintro ⟨h1, h2⟩
      exact ⟨h1, (glob_equiv pat cs).mp h2⟩
    · rintro ⟨h1, h2⟩
      exact ⟨h1, (glob_equiv pat cs).mpr h2⟩

/-- Witness for the C4 theorem at a concrete input. -/
theorem word_filter_correct_witness :
    (tBat.wf = true ∧ tBat.ty = some PyType.str) ∧
    ((word_filter tBat ("ba?".toList)).Sublist tBat.iterate ∧
      (∀ kv, kv ∈ tBat.iterate → ∃ cs f, kv = (PyKey.str cs, f)) ∧
      (∀ cs f, (PyKey.str cs, f) ∈ word_filter tBat ("ba?".toList) ↔
        (PyKey.str cs, f) ∈ tBat.iterate ∧ GlobMatches ("ba?".toList) cs)) :=
  ⟨⟨rfl, rfl⟩, word_filter_correct tBat rfl rfl ("ba?".toList)⟩

theorem fcp_some_length_le {t : Trie Nat} {p : PyKey} {n : Nat} {l : List (PyKey × Nat)}
    (h : find_completes_prefix t p (some n) = .ok l) : l.length ≤ n := by
  unfold find_completes_prefix at h
  by_cases hty : t.ty ≠ some (keyKind p)
  · rw [if_pos hty] at h
    cases h
  · rw [if_neg hty] at h
    cases hw : t.root.findNode (atomsWith t.ty p) with
    | none =>
      rw [hw] at h
      simp only [Except.ok.injEq] at h
      subst h
      simp
    | some m =>
      rw [hw] at h
      simp only [Except.ok.injEq] at h
      subst h
      rw [List.length_take]
      exact Nat.min_le_left n _

theorem autocorrectOut_early {t : Trie Nat} {p : PyKey} {mc : Option Nat}
    {comps : List PyKey} (hac : autocomplete t p mc = .ok comps)
    (hlen : mc = some comps.length) (out : Except Err (List PyKey)) :
    AutocorrectOut t p mc out ↔ out = .ok comps := by
  unfold AutocorrectOut
  rw [hac]
  show (if mc = some comps.length then out = .ok comps else _) ↔ _
  rw [if_pos hlen]

theorem autocorrectOut_main_iff {t : Trie Nat} {cs : List Char} {mc : Option Nat}
    {comps : List PyKey} {cl : List (PyKey × Nat)}
    (hac : autocomplete t (.str cs) mc = .ok comps)
    (hlen : mc ≠ some comps.length)
    (hfcp : find_completes_prefix t (.str cs) mc = .ok cl)
    (out : Except Err (List PyKey)) :
    AutocorrectOut t (.str cs) mc out ↔ AutocorrectMain t cs mc cl out := by
  unfold AutocorrectOut
  rw [hac]
  show (if mc = some comps.length then out = .ok comps
    else match find_completes_prefix t (.str cs) mc with
      | .error e => out = .error e
      | .ok cl => AutocorrectMain t cs mc cl out) ↔ _
  rw [if_neg hlen, hfcp]

/-- C8: with `max_count = n`, autocorrect never returns more than `n` keys in
total; and when the ranked completions already number `n`, every possible run
returns exactly those completions, untouched — edits are never considered. -/
theorem autocorrect_max_count (t : Trie Nat) (p : PyKey) (n : Nat) :
    (∀ l, AutocorrectOut t p (some n) (.ok l) → l.length ≤ n) ∧
    (∀ comps, autocomplete t p (some n) = .ok comps → comps.length = n →
      ∀ out, AutocorrectOut t p (some n) out → out = .ok comps) := by
  constructor
  · intro l hout
    cases hac : autocomplete t p (some n) with
    | error e =>
      unfold AutocorrectOut at hout
      rw [hac] at hout
      have hout2 : (.ok l : Except Err (List PyKey)) = .error e := hout
      cases hout2
    | ok comps =>
      by_cases hlen : (some n : Option Nat) = some comps.length
      · have hout2 := (autocorrectOut_early hac hlen _).mp hout
        rw [Except.ok.injEq] at hout2
        subst hout2
        rw [Option.some.injEq] at hlen
        omega
      · cases p with
        | tup ts =>
          unfold AutocorrectOut at hout
          rw [hac] at hout
          have hout2 : (.ok l : Except Err (List PyKey)) = .error .typeError := by
            have h3 : (if (some n : Option Nat) = some comps.length
                then (.ok l : Except Err (List PyKey)) = .ok comps
                else (.ok l : Except Err (List PyKey)) = .error .typeError) := hout
            rwa [if_neg hlen] at h3
          cases hout2
        | str cs =>
          cases hfcp : find_completes_prefix t (.str cs) (some n) with
          | error e =>
            unfold AutocorrectOut at hout
            rw [hac] at hout
            have h3 : (if (some n : Option Nat) = some comps.length
                then (.ok l : Except Err (List PyKey)) = .ok comps
                else match find_completes_prefix t (.str cs) (some n) with
                  | .error e => (.ok l : Except Err (List PyKey)) = .error e
                  | .ok cl =>
                    AutocorrectMain t cs (some n) cl (.ok l)) := hout
            rw [if_neg hlen, hfcp] at h3
            cases h3
          | ok cl =>
            have hmain := (autocorrectOut_main_iff hac hlen hfcp _).mp hout
            obtain ⟨s, hsnd, hsfin, hsort, l2, hlnd, hlfin, heq⟩ := hmain
            rw [Except.ok.injEq] at heq
            subst heq
            rw [List.length_map]
            have hcl : cl.length ≤ n := fcp_some_length_le hfcp
            have hcard : cl.toFinset.card ≤ n :=
              le_trans (List.toFinset_card_le cl) hcl
            have h5 : l2.length = (cl.toFinset ∪
                (s.take (n - cl.toFinset.card)).toFinset).card := by
              rw [← hlfin, List.toFinset_card_of_nodup hlnd]
            have h6 : (s.take (n - cl.toFinset.card)).toFinset.card ≤
                n - cl.toFinset.card :=
              le_trans (List.toFinset_card_le _) (by rw [List.length_take]; omega)
            have h7 := Finset.card_union_le cl.toFinset
              (s.take (n - cl.toFinset.card)).toFinset
            omega
  · intro comps hac hlen out hout
    exact (autocorrectOut_early hac (by rw [hlen]) out).mp hout

/-- Witness for the C8 theorem at a concrete input: completions alone already
reach the count. -/
theorem autocorrect_max_count_witness :
    autocomplete tBat (strKey "ba") (some 1) = .ok [strKey "bat"] ∧
    AutocorrectOut tBat (strKey "ba") (some 1) (.ok [strKey "bat"]) ∧
    ([(strKey "bat" : PyKey)]).length ≤ 1 ∧
    ∀ out, AutocorrectOut tBat (strKey "ba") (some 1) out → out = .ok [strKey "bat"] := by
  have hout : AutocorrectOut tBat (strKey "ba") (some 1) (.ok [strKey "bat"]) := rfl
  refine ⟨rfl, hout, ?_, ?_⟩
  · exact (autocorrect_max_count tBat (strKey "ba") 1).1 [strKey "bat"] hout
  · exact fun out h =>
      (autocorrect_max_count tBat (strKey "ba") 1).2 [strKey "bat"] rfl rfl out h

/-- C1 exhibit: the final step of `autocorrect` iterates the Python set union
`completions | valid_edits`, whose iteration order is arbitrary, so on the trie
`{"a": 2, "b": 1}` with prefix `"a"` and no `max_count` both `["a", "b"]`
(completions first) and `["b", "a"]` (edit first) are possible outputs of the
same call — the output order is not deterministic and not completions-first. -/
theorem autocorrect_union_order_nondet :
    AutocorrectOut tAB2 (strKey "a") none (.ok [strKey "a", strKey "b"]) ∧
    AutocorrectOut tAB2 (strKey "a") none (.ok [strKey "b", strKey "a"]) ∧
    [(strKey "a" : PyKey), strKey "b"] ≠ [strKey "b", strKey "a"] := by
  have hac : autocomplete tAB2 (strKey "a") none = .ok [strKey "a"] := rfl
  have hfcp : find_completes_prefix tAB2 (strKey "a") none =
      .ok [(strKey "a", 2)] := rfl
  have hlen : (none : Option Nat) ≠ some [(strKey "a" : PyKey)].length := by simp
  refine ⟨?_, ?_, by decide⟩
  · show AutocorrectOut tAB2 (.str "a".toList) none (.ok [strKey "a", strKey "b"])
    rw [autocorrectOut_main_iff hac hlen hfcp]
    exact ⟨[(strKey "a", 2), (strKey "b", 1)], by decide, by decide, rfl⟩
  · show AutocorrectOut tAB2 (.str "a".toList) none (.ok [strKey "b", strKey "a"])
    rw [autocorrectOut_main_iff hac hlen hfcp]
    exact ⟨[(strKey "b", 1), (strKey "a", 2)], by decide, by decide, rfl⟩

theorem wf_empty {V : Type} (kd : PyType) : (Node.empty : Node V).wf kd = true := rfl

theorem wf_mk_nil {V : Type} (kd : PyType) (w : Option V) : (Node.mk w []).wf kd = true := rfl

theorem map_fst_assocSet {β : Type} (ch : List (Atom × β)) (a : Atom) (x : β) :
    (assocSet ch a x).map Prod.fst =
      if (assocGet ch a).isSome then ch.map Prod.fst else ch.map Prod.fst ++ [a] := by
  induction ch with
  | nil => rfl
  | cons e ch ih =>
    obtain ⟨b, m⟩ := e
    by_cases hba : b = a
    · simp [assocSet, assocGet_cons, hba]
    · simp only [assocSet, if_neg hba, assocGet_cons, List.map_cons, ih]
      by_cases hs : (assocGet ch a).isSome <;> simp [hs]

theorem mem_assocSet {β : Type} {ch : List (Atom × β)} {a : Atom} {x : β}
    {b : Atom} {nb : β} (h : (b, nb) ∈ assocSet ch a x) :
    (b, nb) ∈ ch ∨ (b = a ∧ nb = x) := by
  induction ch with
  | nil =>
    rw [assocSet] at h
    rcases List.mem_singleton.mp h with h2
    rw [Prod.mk.injEq] at h2
    exact Or.inr h2
  | cons e ch ih =>
    obtain ⟨c, m⟩ := e
    by_cases hca : c = a
    · rw [assocSet, if_pos hca] at h
      rcases List.mem_cons.mp h with h2 | h2
      · rw [Prod.mk.injEq] at h2
        exact Or.inr ⟨hca ▸ h2.1, h2.2⟩
      · exact Or.inl (List.mem_cons_of_mem _ h2)
    · rw [assocSet, if_neg hca] at h
      rcases List.mem_cons.mp h with h2 | h2
      · exact Or.inl (List.mem_cons.mpr (Or.inl h2))
      · rcases ih h2 with h3 | h3
        · exact Or.inl (List.mem_cons_of_mem _ h3)
        · exact Or.inr h3

theorem assocGet_eq_none_iff {β : Type} (ch : List (Atom × β)) (a : Atom) :
    assocGet ch a = none ↔ a ∉ ch.map Prod.fst := by
  induction ch with
  | nil => simp
  | cons e ch ih =>
    obtain ⟨b, m⟩ := e
    rw [assocGet_cons, List.map_cons]
    by_cases hba : b = a
    · subst hba
      simp
    · rw [if_neg hba]
      simp only [List.mem_cons, ih]
      constructor
      · intro h hmem
        rcases hmem with h2 | h2
        · exact hba h2.symm
        · exact h h2
      · intro h
        exact fun h2 => h (Or.inr h2)

/-- `__setitem__`'s walk preserves well-formedness when the written atoms are
of the trie's kind. -/
theorem wf_setAtoms {V : Type} (kd : PyType) (as : List Atom) :
    ∀ (n : Node V) (v : Option V), n.wf kd = true → as.all (AtomOK kd) = true →
      (n.setAtoms as v).wf kd = true := by
  induction as with
  | nil =>
    intro n v hwf _
    obtain ⟨w, ch⟩ := n
    rw [wf_mk_iff] at hwf
    exact (wf_mk_iff kd v ch).mpr hwf
  | cons a rest ih =>
    intro n v hwf hall
    obtain ⟨w, ch⟩ := n
    rw [List.all_cons, Bool.and_eq_true] at hall
    rw [wf_mk_iff] at hwf
    obtain ⟨hnd, hok⟩ := hwf
    simp only [Node.setAtoms]
    cases hget : assocGet ch a with
    | some c =>
      rw [wf_mk_iff]
      constructor
      · rw [map_fst_assocSet, hget]
        exact hnd
      · intro b nb hmem
        rcases mem_assocSet hmem with h2 | ⟨rfl, rfl⟩
        · exact hok b nb h2
        · exact ⟨hall.1, ih c v (hok b c (mem_of_assocGet_eq_some hget)).2 hall.2⟩
    | none =>
      rw [wf_mk_iff]
      constructor
      · rw [List.map_append]
        rw [List.nodup_append]
        refine ⟨hnd, List.nodup_singleton a, ?_⟩
        intro b hb
        simp only [List.map_cons, List.map_nil, List.mem_singleton]
        intro hba
        subst hba
        exact (assocGet_eq_none_iff ch b).mp hget hb
      · intro b nb hmem
        rcases List.mem_append.mp hmem with h2 | h2
        · exact hok b nb h2
        · rw [List.mem_singleton, Prod.mk.injEq] at h2
          obtain ⟨rfl, rfl⟩ := h2
          exact ⟨hall.1, ih Node.empty v (wf_empty kd) hall.2⟩

/-- Effect of a write on a node's child-atom sequence: an existing head atom
keeps the dict unchanged, a new one is appended at the end — children are kept
in first-insertion order. -/
theorem childKeys_setAtoms {V : Type} (n : Node V) (a : Atom) (as : List Atom)
    (v : Option V) :
    (n.setAtoms (a :: as) v).children.map Prod.fst =
      if (assocGet n.children a).isSome then n.children.map Prod.fst
      else n.children.map Prod.fst ++ [a] := by
  obtain ⟨w, ch⟩ := n
  simp only [Node.setAtoms, Node.children_mk]
  cases hget : assocGet ch a with
  | some c =>
    show (Node.mk w (assocSet ch a (c.setAtoms as v))).children.map Prod.fst = _
    rw [Node.children_mk, map_fst_assocSet, hget]
  | none =>
    show (Node.mk w (ch ++ [(a, Node.empty.setAtoms as v)])).children.map Prod.fst = _
    rw [Node.children_mk, List.map_append]
    simp

theorem key_eq_emptyKey {k : PyKey} {kd : PyType} (h1 : keyKind k = kd)
    (h2 : elemStr k = []) : k = emptyKey kd := by
  cases k with
  | str cs =>
    rw [elemStr, List.map_eq_nil] at h2
    subst h2
    rw [← h1]
    rfl
  | tup ts =>
    rw [elemStr] at h2
    subst h2
    rw [← h1]
    rfl

theorem assocFind_append {V : Type} (l1 l2 : List (PyKey × V)) (k : PyKey) :
    assocFind (l1 ++ l2) k =
      match assocFind l1 k with
      | some v => some v
      | none => assocFind l2 k := by
  induction l1 with
  | nil => rfl
  | cons e l1 ih =>
    obtain ⟨k0, v0⟩ := e
    by_cases hk0 : k0 = k
    · simp [assocFind, hk0]
    · simp only [List.cons_append, assocFind, if_neg hk0]
      exact ih

theorem assocFind_filter_ne_self {V : Type} (es : List (PyKey × V)) (k : PyKey) :
    assocFind (es.filter (fun e => decide (e.1 ≠ k))) k = none := by
  induction es with
  | nil => rfl
  | cons e es ih =>
    obtain ⟨k0, v0⟩ := e
    by_cases hk0 : k0 = k
    · rw [List.filter_cons_of_neg (by simp [hk0])]
      exact ih
    · rw [List.filter_cons_of_pos (by simp [hk0])]
      rw [assocFind, if_neg hk0]
      exact ih

theorem assocFind_filter_ne_other {V : Type} (es : List (PyKey × V)) (k k' : PyKey)
    (hne : k' ≠ k) :
    assocFind (es.filter (fun e => decide (e.1 ≠ k))) k' = assocFind es k' := by
  induction es with
  | nil => rfl
  | cons e es ih =>
    obtain ⟨k0, v0⟩ := e
    by_cases hk0 : k0 = k
    · rw [List.filter_cons_of_neg (by simp [hk0])]
      rw [assocFind, if_neg (by rw [hk0]; exact fun h => hne h.symm)]
      exact ih
    · rw [List.filter_cons_of_pos (by simp [hk0])]
      rw [assocFind, assocFind]
      by_cases hk0' : k0 = k'
      · rw [if_pos hk0', if_pos hk0']
      · rw [if_neg hk0', if_neg hk0']
        exact ih

/-- Pointwise reading of `entriesUpdate` when every stored key and the written
key have the trie's kind: two distinct keys of one kind never address the same
node (the two empty keys of one kind coincide), so the collision test reduces
to plain key equality. -/
theorem assocFind_entriesUpdate {V : Type} {es : List (PyKey × V)} {k : PyKey}
    {kd : PyType} (hkind : ∀ e ∈ es, keyKind e.1 = kd) (hk : keyKind k = kd)
    (v : Option V) (k' : PyKey) :
    assocFind (entriesUpdate es k v) k' = if k' = k then v else assocFind es k' := by
  have hfil : es.filter
        (fun e => decide ¬(e.1 = k ∨ (elemStr e.1 = [] ∧ elemStr k = []))) =
      es.filter (fun e => decide (e.1 ≠ k)) := by
    apply List.filter_congr
    intro e he
    have hiff : (e.1 = k ∨ (elemStr e.1 = [] ∧ elemStr k = [])) ↔ e.1 = k := by
      constructor
      · rintro (h | ⟨h1, h2⟩)
        · exact h
        · rw [key_eq_emptyKey (hkind e he) h1, key_eq_emptyKey hk h2]
      · exact Or.inl
    rw [decide_eq_decide]
    rw [hiff]
  unfold entriesUpdate
  rw [hfil]
  cases v with
  | some w =>
    rw [assocFind_append]
    by_cases hk' : k' = k
    · subst hk'
      rw [assocFind_filter_ne_self, if_pos rfl]
      show assocFind [(k', w)] k' = some w
      show (if k' = k' then some w else assocFind [] k') = some w
      rw [if_pos rfl]
    · rw [if_neg hk', assocFind_filter_ne_other es k k' hk']
      cases assocFind es k' with
      | some u => rfl
      | none =>
        show assocFind [(k, w)] k' = none
        rw [assocFind, if_neg (fun h => hk' h.symm)]
        rfl
  | none =>
    by_cases hk' : k' = k
    · subst hk'
      rw [assocFind_filter_ne_self, if_pos rfl]
    · rw [if_neg hk']
      exact assocFind_filter_ne_other es k k' hk'

theorem mem_entriesUpdate {V : Type} {es : List (PyKey × V)} {k : PyKey}
    {v : Option V} {e : PyKey × V} (h : e ∈ entriesUpdate es k v) :
    e ∈ es ∨ (∃ w, v = some w ∧ e = (k, w)) := by
  unfold entriesUpdate at h
  cases v with
  | none => exact Or.inl (List.mem_of_mem_filter h)
  | some w =>
    rcases List.mem_append.mp h with h2 | h2
    · exact Or.inl (List.mem_of_mem_filter h2)
    · rw [List.mem_singleton] at h2
      exact Or.inr ⟨w, rfl, h2⟩

theorem nodup_entriesUpdate {V : Type} {es : List (PyKey × V)} (k : PyKey)
    (v : Option V) (h : (es.map Prod.fst).Nodup) :
    ((entriesUpdate es k v).map Prod.fst).Nodup := by
  have hcl : ((es.filter
      (fun e => decide ¬(e.1 = k ∨ (elemStr e.1 = [] ∧ elemStr k = [])))).map
        Prod.fst).Nodup :=
    List.Nodup.sublist (List.Sublist.map Prod.fst (List.filter_sublist es)) h
  unfold entriesUpdate
  cases v with
  | none => exact hcl
  | some w =>
    rw [List.map_append, List.nodup_append]
    refine ⟨hcl, List.nodup_singleton k, ?_⟩
    intro b hb
    rw [List.mem_map] at hb
    obtain ⟨e, he, rfl⟩ := hb
    have hkeep := List.of_mem_filter he
    simp only [decide_not, Bool.not_eq_true', decide_eq_false_iff_not] at hkeep
    simp only [List.map_cons, List.map_nil, List.mem_singleton]
    intro hek
    exact hkeep (Or.inl hek)

theorem iter_mk_nil {V : Type} (w : Option V) (k0 : PyKey) :
    (Node.mk w []).iter k0 =
      match w with
      | some x => [(k0, x)]
      | none => [] := by
  rw [iter_mk]
  cases w <;> rfl

theorem atomsWith_eq_nil_iff {kd : PyType} {k : PyKey} :
    atomsWith (some kd) k = [] ↔ elemStr k = [] := by
  unfold atomsWith
  by_cases h : (some kd : Option PyType) = some .tup <;> simp [h]

/-- Membership in the enumeration after a write: the written key now carries the
written value (when one was written), and every other key is untouched. -/
theorem mem_iter_setAtoms_iff {V : Type} {kd : PyType} {n : Node V}
    (hwf : n.wf kd = true) {k : PyKey} (hk : keyKind k = kd) (v : Option V)
    (k' : PyKey) (v' : V) :
    ((k', v') ∈ (n.setAtoms (atomsWith (some kd) k) v).iter (emptyKey kd)) ↔
      ((k' = k ∧ v = some v') ∨ (k' ≠ k ∧ (k', v') ∈ n.iter (emptyKey kd))) := by
  have hok := atomsWith_all_ok hk
  have hwf' : (n.setAtoms (atomsWith (some kd) k) v).wf kd = true :=
    wf_setAtoms kd _ n v hwf hok
  constructor
  · intro h
    obtain ⟨as, hasok, hval, hkey⟩ := findVal_of_mem_iter kd _ hwf' (emptyKey kd) k' v' h
    rw [findVal_setAtoms] at hval
    by_cases hase : as = atomsWith (some kd) k
    · left
      subst hase
      rw [if_pos rfl] at hval
      exact ⟨by rw [hkey, decode_encode hk], hval⟩
    · rw [if_neg hase] at hval
      right
      have hmem := mem_iter_of_findVal as n (emptyKey kd) v' hval
      rw [← hkey] at hmem
      refine ⟨?_, hmem⟩
      intro hkk
      apply hase
      calc as = atomsWith (some kd) (as.foldl appendAtom (emptyKey kd)) :=
            (encode_decode hasok).symm
        _ = atomsWith (some kd) k' := by rw [← hkey]
        _ = atomsWith (some kd) k := by rw [hkk]
  · rintro (⟨rfl, hv⟩ | ⟨hne, hmem⟩)
    · have hval : (n.setAtoms (atomsWith (some kd) k') v).findVal
          (atomsWith (some kd) k') = some v' := by
        rw [findVal_setAtoms, if_pos rfl]
        exact hv
      have hmem := mem_iter_of_findVal _ _ (emptyKey kd) v' hval
      rwa [decode_encode hk] at hmem
    · obtain ⟨as, hasok, hval, hkey⟩ := findVal_of_mem_iter kd n hwf (emptyKey kd) k' v' hmem
      have hase : as ≠ atomsWith (some kd) k := by
        intro heq
        apply hne
        rw [hkey, heq, decode_encode hk]
      have hval' : (n.setAtoms (atomsWith (some kd) k) v).findVal as = some v' := by
        rw [findVal_setAtoms, if_neg hase]
        exact hval
      have hmem' := mem_iter_of_findVal as _ (emptyKey kd) v' hval'
      rwa [← hkey] at hmem'

theorem inv_empty {V : Type} : Inv (Trie.empty : Trie V) Model.empty :=
  Inv.mk rfl (Iff.intro (fun _ => rfl) (fun _ => rfl)) (fun _ => ⟨rfl, rfl⟩)
    (fun _ h => nomatch h) (fun _ h => nomatch h)
    (fun _ e he => absurd he (List.not_mem_nil e)) List.nodup_nil
    (fun _ _ => ⟨fun h => absurd h (List.not_mem_nil _), fun h => nomatch h⟩)

theorem inv_hasDeep_kind {V : Type} {t : Trie V} {m : Model V} (h : Inv t m)
    (hd : m.hasDeep = true) : ∃ kd, m.kind = some kd := by
  cases hkind : m.kind with
  | some kd => exact ⟨kd, rfl⟩
  | none =>
    obtain ⟨hroot, _⟩ := h.untyped_empty hkind
    have hch : t.root.children = [] := by
      rw [hroot]
      rfl
    have hfalse := h.shallow_iff.mp hch
    rw [hd] at hfalse
    exact nomatch hfalse

theorem map_eq_self_of {α : Type} {l : List α} {f : α → α} (h : ∀ a ∈ l, f a = a) :
    l.map f = l := by
  induction l with
  | nil => rfl
  | cons x xs ih =>
    rw [List.map_cons, h x (List.mem_cons_self x xs),
      ih (fun a ha => h a (List.mem_cons_of_mem x ha))]

theorem children_setAtoms_ne_nil_of {V : Type} {n : Node V} (hne : n.children ≠ [])
    (as : List Atom) (v : Option V) : (n.setAtoms as v).children ≠ [] := by
  cases as with
  | nil =>
    obtain ⟨w, ch⟩ := n
    simpa [Node.setAtoms] using hne
  | cons a rest =>
    intro hc
    have h2 := childKeys_setAtoms n a rest v
    rw [hc] at h2
    by_cases hs : (assocGet n.children a).isSome
    · rw [if_pos hs] at h2
      exact hne (List.map_eq_nil_iff.mp h2.symm)
    · rw [if_neg hs] at h2
      exact List.append_ne_nil_of_right_ne_nil _ (by simp) h2.symm

theorem children_setAtoms_nil_iff {V : Type} {n : Node V} (hn : n.children = [])
    (as : List Atom) (v : Option V) : (n.setAtoms as v).children = [] ↔ as = [] := by
  cases as with
  | nil =>
    obtain ⟨w, ch⟩ := n
    simp only [Node.setAtoms, Node.children_mk]
    rw [Node.children_mk] at hn
    simp [hn]
  | cons a rest =>
    constructor
    · intro hc
      have h2 := childKeys_setAtoms n a rest v
      rw [hc, hn] at h2
      rw [if_neg (by simp [assocGet_nil])] at h2
      exact absurd h2.symm (by simp)
    · intro hc
      exact nomatch hc

theorem elemStr_emptyKey (kd : PyType) : elemStr (emptyKey kd) = [] := by
  cases kd <;> rfl

theorem inv_step_set {V : Type} {t : Trie V} {m : Model V} (h : Inv t m)
    (k : PyKey) (v : V) : Inv (applyOp t (Op.set k v)) (modelStep m (Op.set k v)) := by
  by_cases hfail : m.hasDeep = true ∧ m.kind ≠ some (keyKind k)
  · -- the call raises TypeError and neither side changes
    obtain ⟨kd, hkd⟩ := inv_hasDeep_kind h hfail.1
    have hch : t.root.children ≠ [] := by
      intro hc
      have h2 := h.shallow_iff.mp hc
      rw [hfail.1] at h2
      exact nomatch h2
    have hkne : keyKind k ≠ kd := by
      intro he
      exact hfail.2 (by rw [hkd, he])
    have herr : t.setitem k (some v) = .error .typeError :=
      setitem_kind_mismatch t k (some v) kd hch (h.ty_eq.trans hkd) hkne
    have ha : applyOp t (Op.set k v) = t := by
      simp only [applyOp]
      rw [herr]
    have hm2 : modelStep m (Op.set k v) = m := by
      simp only [modelStep]
      rw [if_pos hfail]
    rw [ha, hm2]
    exact h
  · cases hd : m.hasDeep with
    | true =>
      -- the root already has children: a plain overwrite along the key's path
      have hkind : m.kind = some (keyKind k) := by
        by_contra hne
        exact hfail ⟨hd, hne⟩
      have hty : t.ty = some (keyKind k) := h.ty_eq.trans hkind
      have ha : applyOp t (Op.set k v) =
          ⟨t.root.setAtoms (atomsWith (some (keyKind k)) k) (some v),
            some (keyKind k)⟩ := by
        simp only [applyOp]
        rw [setitem_eq_ok t k (some v) hty]
      have hrekey : m.entries.map (fun e =>
          if (elemStr e.1).isEmpty then (emptyKey (keyKind k), e.2) else e) =
          m.entries := by
        apply map_eq_self_of
        intro e he
        by_cases hee : (elemStr e.1).isEmpty = true
        · rw [if_pos hee]
          have hee' : elemStr e.1 = [] := by
            cases hl : elemStr e.1 with
            | nil => rfl
            | cons a as =>
              rw [hl] at hee
              exact nomatch hee
          have he1 : e.1 = emptyKey (keyKind k) :=
            key_eq_emptyKey (h.entry_kind (keyKind k) hkind e he) hee'
          rw [← he1]
        · rw [if_neg hee]
      have hm2 : modelStep m (Op.set k v) =
          ⟨some (keyKind k), true, entriesUpdate m.entries k (some v)⟩ := by
        simp only [modelStep]
        rw [if_neg hfail, hrekey]
        simp [hd, hkind]
      rw [ha, hm2]
      have hwfold : t.root.wf (keyKind k) = true := h.root_wf (keyKind k) hkind
      have hitOld : t.iterate = t.root.iter (emptyKey (keyKind k)) := by
        simp only [Trie.iterate, hty]
      have hchne : t.root.children ≠ [] := by
        intro hc
        have h2 := h.shallow_iff.mp hc
        rw [hd] at h2
        exact nomatch h2
      refine Inv.mk rfl ?_ (fun hnone => nomatch hnone) ?_ ?_
        (fun habs => nomatch habs) ?_ ?_
      · constructor
        · intro hc
          exact absurd hc (children_setAtoms_ne_nil_of hchne _ _)
        · intro hb
          exact nomatch hb
      · intro kd1 hkd1
        cases Option.some.inj hkd1
        exact wf_setAtoms _ _ _ _ hwfold (atomsWith_all_ok rfl)
      · intro kd1 hkd1 e he
        cases Option.some.inj hkd1
        have he' : e ∈ entriesUpdate m.entries k (some v) := he
        rcases mem_entriesUpdate he' with h2 | ⟨w2, _, rfl⟩
        · exact h.entry_kind (keyKind k) hkind e h2
        · rfl
      · exact nodup_entriesUpdate k (some v) h.nodup_keys
      · intro k' v'
        show ((k', v') ∈
            (t.root.setAtoms (atomsWith (some (keyKind k)) k) (some v)).iter
              (emptyKey (keyKind k))) ↔
          assocFind (entriesUpdate m.entries k (some v)) k' = some v'
        rw [mem_iter_setAtoms_iff hwfold rfl (some v) k' v',
          assocFind_entriesUpdate (h.entry_kind (keyKind k) hkind) rfl (some v) k']
        constructor
        · rintro (⟨hkk, hv⟩ | ⟨hne, hmem⟩)
          · rw [if_pos hkk]
            exact hv
          · rw [if_neg hne]
            apply (h.mem_iterate k' v').mp
            rw [hitOld]
            exact hmem
        · intro hr
          by_cases hk' : k' = k
          · rw [if_pos hk'] at hr
            exact Or.inl ⟨hk', hr⟩
          · rw [if_neg hk'] at hr
            refine Or.inr ⟨hk', ?_⟩
            have h2 := (h.mem_iterate k' v').mpr hr
            rwa [hitOld] at h2
    | false =>
      -- childless root: the write re-locks the type; a root payload survives,
      -- re-addressed under the new kind's empty key
      have hch : t.root.children = [] := h.shallow_iff.mpr hd
      obtain ⟨w, hroot⟩ : ∃ w, t.root = Node.mk w [] := by
        cases hrr : t.root with
        | mk w ch =>
          refine ⟨w, ?_⟩
          have hcc : ch = [] := by
            have h2 := hch
            rw [hrr] at h2
            exact h2
          rw [hcc]
      have hemp : t.root.children.isEmpty = true := by
        rw [hch]
        rfl
      have ha : applyOp t (Op.set k v) =
          ⟨(Node.mk w []).setAtoms (atomsWith (some (keyKind k)) k) (some v),
            some (keyKind k)⟩ := by
        have hset : t.setitem k (some v) =
            .ok ⟨(Node.mk w []).setAtoms (atomsWith (some (keyKind k)) k) (some v),
              some (keyKind k)⟩ := by
          unfold Trie.setitem
          rw [if_pos hemp, hroot]
        simp only [applyOp]
        rw [hset]
      have hm2 : modelStep m (Op.set k v) =
          ⟨some (keyKind k), !(elemStr k).isEmpty,
            entriesUpdate (m.entries.map (fun e =>
              if (elemStr e.1).isEmpty then (emptyKey (keyKind k), e.2) else e))
              k (some v)⟩ := by
        simp only [modelStep]
        rw [if_neg hfail]
        simp [hd]
      -- a childless trie holds at most one entry, at the root
      have hshape : (m.entries = [] ∧ w = none) ∨
          (∃ kd0 x, m.kind = some kd0 ∧ m.entries = [(emptyKey kd0, x)] ∧
            w = some x) := by
        cases hkind : m.kind with
        | none =>
          obtain ⟨hroot0, hent⟩ := h.untyped_empty hkind
          refine Or.inl ⟨hent, ?_⟩
          have h3 : Node.mk (none : Option V) [] = Node.mk w [] :=
            hroot0.symm.trans hroot
          injection h3 with hw hch2
          exact hw.symm
        | some kd0 =>
          have hty0 : t.ty = some kd0 := h.ty_eq.trans hkind
          have hitOld : t.iterate = (Node.mk w []).iter (emptyKey kd0) := by
            simp only [Trie.iterate, hty0, hroot]
          cases hw : w with
          | none =>
            have hit2 : t.iterate = [] := by
              rw [hitOld, hw, iter_mk_nil]
            cases hent : m.entries with
            | nil => exact Or.inl ⟨rfl, rfl⟩
            | cons e rest =>
              obtain ⟨ek, ev⟩ := e
              have hfind : assocFind m.entries ek = some ev := by
                rw [hent]
                show (if ek = ek then some ev else assocFind rest ek) = some ev
                rw [if_pos rfl]
              have hmem2 := (h.mem_iterate ek ev).mpr hfind
              rw [hit2] at hmem2
              exact absurd hmem2 (List.not_mem_nil _)
          | some x =>
            have hit2 : t.iterate = [(emptyKey kd0, x)] := by
              rw [hitOld, hw, iter_mk_nil]
            cases hent : m.entries with
            | nil =>
              have hmem : (emptyKey kd0, x) ∈ t.iterate := by
                rw [hit2]
                exact List.mem_singleton.mpr rfl
              have h2 := (h.mem_iterate _ _).mp hmem
              rw [hent] at h2
              exact Option.noConfusion h2
            | cons e rest =>
              obtain ⟨ek, ev⟩ := e
              have hfind : assocFind m.entries ek = some ev := by
                rw [hent]
                show (if ek = ek then some ev else assocFind rest ek) = some ev
                rw [if_pos rfl]
              have hmem2 := (h.mem_iterate ek ev).mpr hfind
              rw [hit2, List.mem_singleton, Prod.mk.injEq] at hmem2
              have hrest : rest = [] := by
                cases hr2 : rest with
                | nil => rfl
                | cons e2 r2 =>
                  have hmeme2 : e2 ∈ m.entries := by
                    rw [hent, hr2]
                    exact List.mem_cons_of_mem _ (List.mem_cons_self e2 r2)
                  have he2 : e2.1 = emptyKey kd0 :=
                    key_eq_emptyKey (h.entry_kind kd0 hkind e2 hmeme2)
                      (h.shallow_entries hd e2 hmeme2)
                  have hnd := h.nodup_keys
                  rw [hent, hr2, List.map_cons, List.map_cons,
                    List.nodup_cons] at hnd
                  exact absurd
                    (List.mem_cons.mpr (Or.inl (hmem2.1.trans he2.symm))) hnd.1
              subst hrest
              refine Or.inr ⟨kd0, x, rfl, ?_, rfl⟩
              rw [hmem2.1, hmem2.2]
      rw [ha, hm2]
      rcases hshape with ⟨hent, hw⟩ | ⟨kd0, x, hkind0, hent, hw⟩
      · -- nothing was stored yet
        subst hw
        rw [hent, List.map_nil]
        refine Inv.mk rfl ?_ (fun hnone => nomatch hnone) ?_ ?_ ?_ ?_ ?_
        · show ((Node.mk (none : Option V) []).setAtoms
              (atomsWith (some (keyKind k)) k) (some v)).children = [] ↔
            (!(elemStr k).isEmpty) = false
          rw [@children_setAtoms_nil_iff V (Node.mk (none : Option V) []) rfl
              (atomsWith (some (keyKind k)) k) (some v), atomsWith_eq_nil_iff]
          constructor
          · intro he
            rw [he]
            rfl
          · intro hb
            cases hl : elemStr k with
            | nil => rfl
            | cons a as =>
              rw [hl] at hb
              exact nomatch hb
        · intro kd1 hkd1
          cases Option.some.inj hkd1
          exact wf_setAtoms _ _ _ _ (wf_mk_nil _ (none : Option V))
            (atomsWith_all_ok rfl)
        · intro kd1 hkd1 e he
          cases Option.some.inj hkd1
          have he' : e ∈ entriesUpdate ([] : List (PyKey × V)) k (some v) := he
          rcases mem_entriesUpdate he' with h2 | ⟨w2, _, rfl⟩
          · exact absurd h2 (List.not_mem_nil e)
          · rfl
        · intro hdeep e he
          have hke : elemStr k = [] := by
            cases hl : elemStr k with
            | nil => rfl
            | cons a as =>
              rw [hl] at hdeep
              exact nomatch hdeep
          have he' : e ∈ entriesUpdate ([] : List (PyKey × V)) k (some v) := he
          rcases mem_entriesUpdate he' with h2 | ⟨w2, _, rfl⟩
          · exact absurd h2 (List.not_mem_nil e)
          · exact hke
        · exact nodup_entriesUpdate k (some v) List.nodup_nil
        · intro k' v'
          have hit : (Node.mk (none : Option V) []).iter
              (emptyKey (keyKind k)) = [] := rfl
          show ((k', v') ∈ ((Node.mk (none : Option V) []).setAtoms
              (atomsWith (some (keyKind k)) k) (some v)).iter
              (emptyKey (keyKind k))) ↔
            assocFind (entriesUpdate ([] : List (PyKey × V)) k (some v)) k'
              = some v'
          rw [mem_iter_setAtoms_iff (wf_mk_nil (keyKind k) (none : Option V))
              rfl (some v) k' v',
            assocFind_entriesUpdate
              (fun e he => absurd he (List.not_mem_nil e)) rfl (some v) k', hit]
          constructor
          · rintro (⟨hkk, hv⟩ | ⟨hne, hmem⟩)
            · rw [if_pos hkk]
              exact hv
            · exact absurd hmem (List.not_mem_nil _)
          · intro hr
            by_cases hk' : k' = k
            · rw [if_pos hk'] at hr
              exact Or.inl ⟨hk', hr⟩
            · rw [if_neg hk'] at hr
              exact Option.noConfusion hr
      · -- a single empty-keyed entry survives, re-keyed under the new kind
        subst hw
        have hmap : (([(emptyKey kd0, x)] : List (PyKey × V)).map (fun e =>
            if (elemStr e.1).isEmpty then (emptyKey (keyKind k), e.2) else e)) =
            [(emptyKey (keyKind k), x)] := by
          cases kd0 <;> rfl
        rw [hent, hmap]
        have hk1 : ∀ e ∈ ([(emptyKey (keyKind k), x)] : List (PyKey × V)),
            keyKind e.1 = keyKind k := by
          intro e he
          rw [List.mem_singleton] at he
          subst he
          exact keyKind_emptyKey _
        refine Inv.mk rfl ?_ (fun hnone => nomatch hnone) ?_ ?_ ?_ ?_ ?_
        · show ((Node.mk (some x) []).setAtoms
              (atomsWith (some (keyKind k)) k) (some v)).children = [] ↔
            (!(elemStr k).isEmpty) = false
          rw [@children_setAtoms_nil_iff V (Node.mk (some x) []) rfl
              (atomsWith (some (keyKind k)) k) (some v), atomsWith_eq_nil_iff]
          constructor
          · intro he
            rw [he]
            rfl
          · intro hb
            cases hl : elemStr k with
            | nil => rfl
            | cons a as =>
              rw [hl] at hb
              exact nomatch hb
        · intro kd1 hkd1
          cases Option.some.inj hkd1
          exact wf_setAtoms _ _ _ _ (wf_mk_nil _ (some x))
            (atomsWith_all_ok rfl)
        · intro kd1 hkd1 e he
          cases Option.some.inj hkd1
          have he' : e ∈ entriesUpdate
              ([(emptyKey (keyKind k), x)] : List (PyKey × V)) k (some v) := he
          rcases mem_entriesUpdate he' with h2 | ⟨w2, _, rfl⟩
          · exact hk1 e h2
          · rfl
        · intro hdeep e he
          have hke : elemStr k = [] := by
            cases hl : elemStr k with
            | nil => rfl
            | cons a as =>
              rw [hl] at hdeep
              exact nomatch hdeep
          have he' : e ∈ entriesUpdate
              ([(emptyKey (keyKind k), x)] : List (PyKey × V)) k (some v) := he
          rcases mem_entriesUpdate he' with h2 | ⟨w2, _, rfl⟩
          · rw [List.mem_singleton] at h2
            subst h2
            exact elemStr_emptyKey _
          · exact hke
        · exact nodup_entriesUpdate k (some v) (List.nodup_singleton _)
        · intro k' v'
          have hit : (Node.mk (some x) []).iter (emptyKey (keyKind k)) =
              [(emptyKey (keyKind k), x)] := rfl
          show ((k', v') ∈ ((Node.mk (some x) []).setAtoms
              (atomsWith (some (keyKind k)) k) (some v)).iter
              (emptyKey (keyKind k))) ↔
            assocFind (entriesUpdate
              ([(emptyKey (keyKind k), x)] : List (PyKey × V)) k (some v)) k'
              = some v'
          rw [mem_iter_setAtoms_iff (wf_mk_nil (keyKind k) (some x))
              rfl (some v) k' v',
            assocFind_entriesUpdate hk1 rfl (some v) k', hit]
          constructor
          · rintro (⟨hkk, hv⟩ | ⟨hne, hmem⟩)
            · rw [if_pos hkk]
              exact hv
            · rw [if_neg hne]
              rw [List.mem_singleton, Prod.mk.injEq] at hmem
              show (if emptyKey (keyKind k) = k' then some x
                else assocFind [] k') = some v'
              rw [if_pos hmem.1.symm, hmem.2]
          · intro hr
            by_cases hk' : k' = k
            · rw [if_pos hk'] at hr
              exact Or.inl ⟨hk', hr⟩
            · rw [if_neg hk'] at hr
              refine Or.inr ⟨hk', ?_⟩
              have hr3 : (if emptyKey (keyKind k) = k' then some x
                  else (none : Option V)) = some v' := hr
              by_cases hek : emptyKey (keyKind k) = k'
              · rw [if_pos hek] at hr3
                rw [List.mem_singleton, Prod.mk.injEq]
                exact ⟨hek.symm, (Option.some.inj hr3).symm⟩
              · rw [if_neg hek] at hr3
                exact Option.noConfusion hr3

theorem mem_of_assocFind {V : Type} {es : List (PyKey × V)} {k : PyKey} {v : V}
    (h : assocFind es k = some v) : (k, v) ∈ es := by
  induction es with
  | nil => exact Option.noConfusion h
  | cons e es ih =>
    obtain ⟨ek, ev⟩ := e
    have h' : (if ek = k then some ev else assocFind es k) = some v := h
    by_cases hek : ek = k
    · rw [if_pos hek] at h'
      subst hek
      exact List.mem_cons.mpr (Or.inl (by rw [Option.some.inj h']))
    · rw [if_neg hek] at h'
      exact List.mem_cons.mpr (Or.inr (ih h'))

theorem inv_step_del {V : Type} {t : Trie V} {m : Model V} (h : Inv t m)
    (k : PyKey) : Inv (applyOp t (Op.del k)) (modelStep m (Op.del k)) := by
  by_cases hcond : m.kind = some (keyKind k) ∧ (assocFind m.entries k).isSome = true
  · -- the key is present: `__delitem__` succeeds and clears the terminal value
    obtain ⟨hkind, hsome⟩ := hcond
    cases hv0m : assocFind m.entries k with
    | none =>
      rw [hv0m] at hsome
      exact Bool.noConfusion hsome
    | some v0 =>
      have hty : t.ty = some (keyKind k) := h.ty_eq.trans hkind
      have hwf : t.root.wf (keyKind k) = true := h.root_wf (keyKind k) hkind
      have hitOld : t.iterate = t.root.iter (emptyKey (keyKind k)) := by
        simp only [Trie.iterate, hty]
      have hfind : t.find k = some v0 :=
        (find_iff_mem_iterate hwf hty rfl v0).mpr ((h.mem_iterate k v0).mpr hv0m)
      have hnotor : ¬(t.ty = none ∨ t.ty ≠ some (keyKind k)) := by
        intro hor
        rcases hor with h1 | h2
        · rw [hty] at h1
          exact Option.noConfusion h1
        · exact h2 hty
      have hget : t.getitem k = .ok v0 := by
        unfold Trie.getitem
        rw [if_neg hnotor, hfind]
      have hdel : t.delitem k = t.setitem k none := by
        unfold Trie.delitem
        rw [hget]
      have ha : applyOp t (Op.del k) =
          ⟨t.root.setAtoms (atomsWith (some (keyKind k)) k) none,
            some (keyKind k)⟩ := by
        simp only [applyOp]
        rw [hdel, setitem_eq_ok t k none hty]
      have hm2 : modelStep m (Op.del k) =
          ⟨m.kind, m.hasDeep, entriesUpdate m.entries k none⟩ := by
        simp only [modelStep]
        rw [if_pos ⟨hkind, by rw [hv0m]; rfl⟩]
      rw [ha, hm2]
      refine Inv.mk hkind.symm ?_ ?_ ?_ ?_ ?_ ?_ ?_
      · -- deleting never removes nodes, so the shallow/deep status is unchanged
        by_cases hchn : t.root.children = []
        · have hdF : m.hasDeep = false := h.shallow_iff.mp hchn
          have hkmem : (k, v0) ∈ m.entries := mem_of_assocFind hv0m
          have hke : elemStr k = [] := h.shallow_entries hdF _ hkmem
          have has : atomsWith (some (keyKind k)) k = [] :=
            atomsWith_eq_nil_iff.mpr hke
          constructor
          · intro hc
            exact hdF
          · intro hb
            rw [has]
            exact (children_setAtoms_nil_iff hchn [] none).mpr rfl
        · have hdT : m.hasDeep = true := by
            cases hdd : m.hasDeep with
            | true => rfl
            | false => exact absurd (h.shallow_iff.mpr hdd) hchn
          constructor
          · intro hc
            exact absurd hc (children_setAtoms_ne_nil_of hchn _ _)
          · intro hb
            have hb' : m.hasDeep = false := hb
            rw [hdT] at hb'
            exact Bool.noConfusion hb'
      · intro hnone
        have hnone' : m.kind = none := hnone
        rw [hkind] at hnone'
        exact Option.noConfusion hnone'
      · intro kd1 hkd1
        have h1 : m.kind = some kd1 := hkd1
        rw [hkind] at h1
        cases Option.some.inj h1
        exact wf_setAtoms _ _ _ _ hwf (atomsWith_all_ok rfl)
      · intro kd1 hkd1 e he
        have h1 : m.kind = some kd1 := hkd1
        rw [hkind] at h1
        cases Option.some.inj h1
        have he' : e ∈ entriesUpdate m.entries k none := he
        rcases mem_entriesUpdate he' with h2 | ⟨w2, hw2, _⟩
        · exact h.entry_kind (keyKind k) hkind e h2
        · exact Option.noConfusion hw2
      · intro hdeep e he
        have hdeep' : m.hasDeep = false := hdeep
        have he' : e ∈ entriesUpdate m.entries k none := he
        rcases mem_entriesUpdate he' with h2 | ⟨w2, hw2, _⟩
        · exact h.shallow_entries hdeep' e h2
        · exact Option.noConfusion hw2
      · exact nodup_entriesUpdate k none h.nodup_keys
      · intro k' v'
        show ((k', v') ∈
            (t.root.setAtoms (atomsWith (some (keyKind k)) k) none).iter
              (emptyKey (keyKind k))) ↔
          assocFind (entriesUpdate m.entries k none) k' = some v'
        rw [mem_iter_setAtoms_iff hwf rfl none k' v',
          assocFind_entriesUpdate (h.entry_kind (keyKind k) hkind) rfl none k']
        constructor
        · rintro (⟨hkk, hv⟩ | ⟨hne, hmem⟩)
          · exact Option.noConfusion hv
          · rw [if_neg hne]
            apply (h.mem_iterate k' v').mp
            rw [hitOld]
            exact hmem
        · intro hr
          by_cases hk' : k' = k
          · rw [if_pos hk'] at hr
            exact Option.noConfusion hr
          · rw [if_neg hk'] at hr
            refine Or.inr ⟨hk', ?_⟩
            have h2 := (h.mem_iterate k' v').mpr hr
            rwa [hitOld] at h2
  · -- the lookup raises (TypeError or KeyError) and nothing changes
    have hget : ∃ err, t.getitem k = .error err := by
      by_cases hkind : m.kind = some (keyKind k)
      · have hty : t.ty = some (keyKind k) := h.ty_eq.trans hkind
        have hnone : assocFind m.entries k = none := by
          cases haf : assocFind m.entries k with
          | none => rfl
          | some v0 => exact absurd ⟨hkind, by rw [haf]; rfl⟩ hcond
        have hfind : t.find k = none := by
          cases hf : t.find k with
          | none => rfl
          | some v0 =>
            have hmem := (find_iff_mem_iterate (h.root_wf _ hkind) hty rfl v0).mp hf
            have h2 := (h.mem_iterate k v0).mp hmem
            rw [hnone] at h2
            exact Option.noConfusion h2
        have hnotor : ¬(t.ty = none ∨ t.ty ≠ some (keyKind k)) := by
          intro hor
          rcases hor with h1 | h2
          · rw [hty] at h1
            exact Option.noConfusion h1
          · exact h2 hty
        refine ⟨.keyError, ?_⟩
        unfold Trie.getitem
        rw [if_neg hnotor, hfind]
      · refine ⟨.typeError, ?_⟩
        unfold Trie.getitem
        rw [if_pos (Or.inr ?_)]
        rw [h.ty_eq]
        exact fun hc => hkind hc
    obtain ⟨err, hgeterr⟩ := hget
    have hdelerr : t.delitem k = .error err := by
      unfold Trie.delitem
      rw [hgeterr]
    have ha : applyOp t (Op.del k) = t := by
      simp only [applyOp]
      rw [hdelerr]
    have hm2 : modelStep m (Op.del k) = m := by
      simp only [modelStep]
      rw [if_neg hcond]
    rw [ha, hm2]
    exact h

theorem inv_step {V : Type} {t : Trie V} {m : Model V} (h : Inv t m) (op : Op V) :
    Inv (applyOp t op) (modelStep m op) := by
  cases op with
  | set k v => exact inv_step_set h k v
  | del k => exact inv_step_del h k

theorem inv_replay {V : Type} (ops : List (Op V)) :
    Inv (applyOps Trie.empty ops) (replay ops) := by
  have key : ∀ (t : Trie V) (m : Model V), Inv t m →
      Inv (ops.foldl applyOp t) (ops.foldl modelStep m) := by
    induction ops with
    | nil =>
      intro t m h
      exact h
    | cons op ops ih =>
      intro t m h
      exact ih _ _ (inv_step h op)
  exact key _ _ inv_empty

/-- C5: iteration completeness, corrected for the empty-key/type-re-lock
corner.  A never-inserted trie enumerates nothing.  For a trie built from
`Trie()` by any sequence of `__setitem__`/`__delitem__` calls, `__iter__`
enumerates exactly the present keys with their latest values as given by
`replayLookup` — which records that, while the trie still has no children, a
set with a key of the other kind re-locks the type and a payload stored at the
root via an empty key is henceforth enumerated under the *new* kind's empty key
(so "exactly the keys ever set and not deleted" fails literally; see the
counterexample).  Children are visited in the order their atoms were first
inserted: a write walking atom `a` keeps the existing child order and appends
`a` only if it is new. -/
theorem iterate_exactly_present_keys {V : Type} (ops : List (Op V)) :
    ((Trie.empty : Trie V).iterate = []) ∧
    (∀ (k : PyKey) (v : V),
      ((k, v) ∈ (applyOps Trie.empty ops).iterate ↔
        replayLookup ops k = some v)) ∧
    (∀ (n : Node V) (a : Atom) (as : List Atom) (w : Option V),
      (n.setAtoms (a :: as) w).children.map Prod.fst =
        if (assocGet n.children a).isSome then n.children.map Prod.fst
        else n.children.map Prod.fst ++ [a]) := by
  refine ⟨rfl, ?_, ?_⟩
  · intro k v
    exact (inv_replay ops).mem_iterate k v
  · intro n a as w
    exact childKeys_setAtoms n a as w

/-- C5 counterexample: after `t[""] = 1; t[("x",)] = 2` (both calls succeed:
the second re-locks the type since the root still has no children) the
enumeration is `[((), 1), (("x",), 2)]`.  The string key `""` was set and never
deleted yet is absent, and the tuple key `()` was never set yet appears with
value 1 — the claim's "exactly the keys ever set and not subsequently deleted"
is false. -/
theorem iterate_rekeys_empty_key :
    (applyOps Trie.empty
        [Op.set (strKey "") (1 : Nat), Op.set (PyKey.tup ["x"]) 2]).iterate =
      [(PyKey.tup [], 1), (PyKey.tup ["x"], 2)] ∧
    (strKey "", (1 : Nat)) ∉ (applyOps Trie.empty
        [Op.set (strKey "") (1 : Nat), Op.set (PyKey.tup ["x"]) 2]).iterate ∧
    PyKey.tup [] ≠ strKey "" := by
  refine ⟨?_, ?_, ?_⟩ <;> decide

end TrieLab
